import Mathlib

/-!
Verification of the scpi-client codec crate.

Shallow embedding conventions:
* A Rust `&str` is modelled as a `List Char` of Unicode scalar values
  (valid UTF-8 strings are exactly sequences of scalar values).
* Rust byte-level operations (`str::len`, `str::split_at`, byte slicing)
  are modelled through the UTF-8 byte length of each character
  (`utf8Len`, `byteLen`, `takeBytes`).  Slicing a string at a position
  that is not a character boundary panics in Rust; the model returns a
  dedicated `panic` outcome in that case.
* A `&mut &str` cursor is modelled by explicit state passing: a fallible
  cursor operation returns the outcome together with the cursor value
  after the call (Rust mutations performed before an error persist, so
  the error outcome also carries a cursor).
* `Error::ResponseDecoding(format!(...))` messages are modelled as the
  corresponding `List Char` concatenations.
-/

/-- Byte length of one character in UTF-8 (as produced by Rust `char::len_utf8`). -/
def utf8Len (c : Char) : Nat :=
  if c.toNat < 0x80 then 1
  else if c.toNat < 0x800 then 2
  else if c.toNat < 0x10000 then 3
  else 4

/-- Byte length of a string in UTF-8 (Rust `str::len`). -/
def byteLen : List Char → Nat
  | [] => 0
  | c :: rest => utf8Len c + byteLen rest

/-- Split a string at byte position `n` (Rust `str::split_at`): `none` models the
panic raised when `n` is larger than the byte length or not a character boundary. -/
def takeBytes : List Char → Nat → Option (List Char × List Char)
  | xs, 0 => some ([], xs)
  | [], _ + 1 => none
  | c :: cs, n + 1 =>
    if utf8Len c ≤ n + 1 then
      match takeBytes cs (n + 1 - utf8Len c) with
      | some (h1, t1) => some (c :: h1, t1)
      | none => none
    else none

/-- Model of `Error` from `src/lib.rs`: the single decoding-failure kind with its message. -/
inductive Error where
  | ResponseDecoding (msg : List Char)
deriving DecidableEq

/-- Outcome of a fallible cursor operation: the value and the cursor after the
call, an error together with the cursor after the call (mutations performed
before the error persist), or a Rust panic. -/
inductive POutcome (α : Type) where
  | ok (value : α) (rest : List Char)
  | err (e : Error) (rest : List Char)
  | panic
deriving DecidableEq

/-- Outcome of `deserialize_complete` (no cursor is returned to the caller). -/
inductive COutcome (α : Type) where
  | ok (value : α)
  | err (e : Error)
  | panic
deriving DecidableEq

/-- Message of the `match_literal` error (`format!` in `src/lib.rs`). -/
def matchLiteralMsg (lit input : List Char) : List Char :=
  "Expected literal `".toList ++ lit ++ "` not matched `".toList ++ input ++ "`".toList

/-- Model of `match_literal` from `src/lib.rs`: strip `lit` from the front of the cursor,
else fail with the cursor unchanged.  (Rust `str::strip_prefix` with a `&str`
pattern removes exactly that character sequence when it is a prefix.) -/
def match_literal (input lit : List Char) : Except Error Unit × List Char :=
  if lit <+: input then
    (Except.ok (), input.drop lit.length)
  else
    (Except.error (Error.ResponseDecoding (matchLiteralMsg lit input)), input)

/-- First index of character `d` (Rust `str::find(char)` up to the byte/char
position correspondence: the byte index it returns denotes the same split
point as this character index). -/
def charIdxOf (d : Char) : List Char → Option Nat
  | [] => none
  | c :: rest =>
    if c = d then some 0
    else match charIdxOf d rest with
      | some k => some (k + 1)
      | none => none

/-- Message of the `read_until` error. -/
def readUntilMsg (d : Char) (input : List Char) : List Char :=
  "Expected `".toList ++ [d] ++ "` in `".toList ++ input ++ "`".toList

/-- Model of `read_until` from `src/lib.rs`.  The code finds the first occurrence of the
delimiter, splits there (always a character boundary) and then byte-slices the
tail with `&tail[1..]`.  That slice skips exactly one byte, so it is only a
character boundary when the delimiter is a one-byte character; for a delimiter
whose UTF-8 encoding is longer, Rust panics. -/
def read_until (input : List Char) (d : Char) : POutcome (List Char) :=
  match charIdxOf d input with
  | some k =>
    if utf8Len d = 1 then POutcome.ok (input.take k) (input.drop (k + 1))
    else POutcome.panic
  | none => POutcome.err (Error.ResponseDecoding (readUntilMsg d input)) input

/-- Decimal digit characters produced below (used in the `read_exact` message). -/
def digitChar (d : Nat) : Char := Char.ofNat (48 + d)

/-- Fuel-driven most-significant-first decimal digits of `n` (`n = 0` gives `[]`).
Models the repeated div/mod-10 loop of Rust integer `to_string`. -/
def natToCharsCore : Nat → Nat → List Char
  | 0, _ => []
  | fuel + 1, n =>
    if n = 0 then []
    else natToCharsCore fuel (n / 10) ++ [digitChar (n % 10)]

/-- Decimal rendering of a natural number (Rust unsigned `to_string`). -/
def natToChars (n : Nat) : List Char :=
  if n = 0 then ['0'] else natToCharsCore (n + 1) n

/-- Decimal rendering of an integer (Rust signed `to_string`): a `-` sign for
negative values, no sign otherwise. -/
def intToChars (v : Int) : List Char :=
  if v < 0 then '-' :: natToChars v.natAbs else natToChars v.toNat

/-- Message of the `read_exact` error (the length is formatted in decimal). -/
def readExactMsg (len : Nat) (input : List Char) : List Char :=
  "Failed to read ".toList ++ natToChars len ++ " characters from `".toList ++
    input ++ "`".toList

/-- Model of `read_exact` from `src/lib.rs`: compares `len` against the BYTE length of
the remaining input and then byte-splits with `str::split_at`, which panics
when `len` falls inside a multi-byte character. -/
def read_exact (input : List Char) (len : Nat) : POutcome (List Char) :=
  if byteLen input < len then
    POutcome.err (Error.ResponseDecoding (readExactMsg len input)) input
  else
    match takeBytes input len with
    | some (h, t) => POutcome.ok h t
    | none => POutcome.panic

/-- Model of `read_prefix` from `src/lib.rs`, parameterised by the matcher: `find`
models `Regex::find`, returning the (start, end) character positions of the
leftmost match, if any.  The code takes `m.end()` (or 0 when there is no
match) and splits there — note that the match START is ignored. -/
def read_prefix (find : List Char → Option (Nat × Nat)) (input : List Char) :
    List Char × List Char :=
  match find input with
  | some m => (input.take m.2, input.drop m.2)
  | none => (input.take 0, input.drop 0)

/-- Message of the `check_empty` error. -/
def checkEmptyMsg (input : List Char) : List Char :=
  "Response should be empty/fully deserialized, but still has content: `".toList ++
    input ++ "`".toList

/-- Model of `check_empty` from `src/lib.rs`. -/
def check_empty (input : List Char) : Except Error Unit :=
  if input.isEmpty then Except.ok ()
  else Except.error (Error.ResponseDecoding (checkEmptyMsg input))

/-- Model of `ScpiDeserialize::deserialize_complete` from `src/lib.rs`, parameterised by
the type's `deserialize`.  The leftover-input check is
`check_empty(input).unwrap()`: a failing check does not produce an `Err`
result, it panics (`Result::unwrap` on `Err`). -/
def deserialize_complete {α : Type} (d : List Char → POutcome α)
    (input : List Char) : COutcome α :=
  match d input with
  | POutcome.ok v rest =>
    match check_empty rest with
    | Except.ok _ => COutcome.ok v
    | Except.error _ => COutcome.panic
  | POutcome.err e _ => COutcome.err e
  | POutcome.panic => COutcome.panic

/-!
Numeric primitive codec (`src/primitives.rs`).

The three category regexes are modelled as character-level matchers.  All
three are anchored with `^`, so `Regex::find` either matches starting at
position 0 or (for the two integer patterns) returns `None`; `m.end()` is the
greedy match end.  The regex crate's `\d` is Unicode-aware (`\p{Nd}`); the
model uses the ASCII digits — every statement proved below is insensitive to
the exact digit class, and every character any of these matchers can consume
is a one-byte ASCII character, so the byte offsets the code computes coincide
with the character offsets used here.
-/

/-- Match end of `REGEX_UNSIGNED_INT` (`^\d+`), or 0 when there is no match
(the code's `map_or(0, |m| m.end())`). -/
def uintPrefixLen (input : List Char) : Nat :=
  (input.takeWhile Char.isDigit).length

/-- Match end of `REGEX_SIGNED_INT` (`^[+-]?\d+`), or 0 when there is no
match: a sign must be followed by at least one digit to count. -/
def sintPrefixLen (input : List Char) : Nat :=
  match input with
  | [] => 0
  | c :: rest =>
    if c = '+' ∨ c = '-' then
      let ds := rest.takeWhile Char.isDigit
      if ds = [] then 0 else ds.length + 1
  else (input.takeWhile Char.isDigit).length

/-- Greedy match of the optional sign (`[+-]?`): consumed part and remainder. -/
def signSpan (input : List Char) : List Char × List Char :=
  match input with
  | c :: rest => if c = '+' ∨ c = '-' then ([c], rest) else ([], input)
  | [] => ([], [])

/-- Greedy match of a digit run (`\d*` inside the float pattern). -/
def digitSpan (input : List Char) : List Char × List Char :=
  (input.takeWhile Char.isDigit, input.dropWhile Char.isDigit)

/-- Greedy match of the optional fraction (`(?:\.\d+)?`): a dot counts only
when followed by at least one digit. -/
def fracSpan (input : List Char) : List Char × List Char :=
  match input with
  | c :: rest =>
    if c = '.' then
      let ds := rest.takeWhile Char.isDigit
      if ds = [] then ([], input) else (c :: ds, rest.dropWhile Char.isDigit)
    else ([], input)
  | [] => ([], input)

/-- Greedy match of the optional exponent (`(?:[eE][+-]?\d+)?`): an `e`/`E`
counts only when the optional sign is followed by at least one digit. -/
def expSpan (input : List Char) : List Char × List Char :=
  match input with
  | c :: rest =>
    if c = 'e' ∨ c = 'E' then
      match rest with
      | c2 :: rest2 =>
        if c2 = '+' ∨ c2 = '-' then
          let ds := rest2.takeWhile Char.isDigit
          if ds = [] then ([], input)
          else (c :: c2 :: ds, rest2.dropWhile Char.isDigit)
        else
          let ds := rest.takeWhile Char.isDigit
          if ds = [] then ([], input)
          else (c :: ds, rest.dropWhile Char.isDigit)
      | [] => ([], input)
    else ([], input)
  | [] => ([], input)

/-- Greedy match of `REGEX_FLOATING_POINT`
(`^[+-]?(?:\d+)?(?:\.\d+)?(?:[eE][+-]?\d+)?`): the four components matched in
sequence, each taking its greedy maximum (every component is optional and they
start with disjoint character classes, so the regex engine's leftmost-first
match is exactly this sequential greedy match).  The pattern can match the
empty string, so `find` always succeeds and the match end is this length. -/
def floatSpan (input : List Char) : List Char × List Char :=
  let s := signSpan input
  let d := digitSpan s.2
  let f := fracSpan d.2
  let e := expSpan f.2
  (s.1 ++ d.1 ++ f.1 ++ e.1, e.2)

/-- Match end of `REGEX_FLOATING_POINT` (`m.end()`; a match always exists). -/
def floatPrefixLen (input : List Char) : Nat :=
  (floatSpan input).1.length

/-- Numeric value of a list of decimal digit characters (most significant first). -/
def digitsToNat (ds : List Char) : Nat :=
  ds.foldl (fun a c => 10 * a + (c.toNat - 48)) 0

/-- Rust `<uN>::from_str`: an optional leading `+`, then one or more ASCII
digits; fails on an empty string, on any other character, and on overflow
(the checked accumulation fails exactly when the value exceeds `max`). -/
def parseUnsigned (s : List Char) (max : Nat) : Option Nat :=
  let body := match s with
    | c :: rest => if c = '+' then rest else s
    | [] => s
  if body = [] then none
  else if body.all Char.isDigit then
    if digitsToNat body ≤ max then some (digitsToNat body) else none
  else none

/-- Rust `<iN>::from_str`: an optional leading `+`/`-`, then one or more ASCII
digits; fails on an empty body, on any other character, and when the signed
value falls outside `[min, max]`. -/
def parseSigned (s : List Char) (min max : Int) : Option Int :=
  let sb : Int × List Char := match s with
    | c :: rest =>
      if c = '+' then (1, rest) else if c = '-' then (-1, rest) else (1, s)
    | [] => (1, s)
  if sb.2 = [] then none
  else if sb.2.all Char.isDigit then
    let v : Int := sb.1 * digitsToNat sb.2
    if min ≤ v ∧ v ≤ max then some v else none
  else none

/-- Exponent suffix of the Rust float grammar (`Exp ::= (e|E) Sign? Digit+`,
or nothing): `some e` when the whole remainder is a valid exponent part. -/
def parseExpPart : List Char → Option Int
  | [] => some 0
  | c :: rest =>
    if c = 'e' ∨ c = 'E' then
      match rest with
      | c2 :: rest2 =>
        if c2 = '+' then
          if rest2 ≠ [] ∧ rest2.all Char.isDigit then some (digitsToNat rest2) else none
        else if c2 = '-' then
          if rest2 ≠ [] ∧ rest2.all Char.isDigit then some (-(digitsToNat rest2 : Int)) else none
        else
          if rest.all Char.isDigit then some (digitsToNat rest) else none
      | [] => none
    else none

/-- Rust `f32`/`f64` `from_str` on the token shapes reachable from
`REGEX_FLOATING_POINT` (`Number ::= Sign? (Digit+ .? Digit* Exp? | . Digit+ Exp?)`;
the `inf`/`NaN` literal forms of the full grammar are never produced by the
regex and are omitted).  The value is modelled as the exact rational the
decimal denotes; Rust rounds it to the nearest float and saturates overflow
to infinity, so the parse never fails on range — it fails exactly when the
significand carries no digit.  The success/failure domain is what the claims
depend on. -/
def parseFloat (s : List Char) : Option ℚ :=
  let sb : ℚ × List Char := match s with
    | c :: rest =>
      if c = '+' then (1, rest) else if c = '-' then (-1, rest) else (1, s)
    | [] => (1, s)
  let ds := sb.2.takeWhile Char.isDigit
  let r2 := sb.2.dropWhile Char.isDigit
  match r2 with
  | c :: rest =>
    if c = '.' then
      let fs := rest.takeWhile Char.isDigit
      let r3 := rest.dropWhile Char.isDigit
      if ds = [] ∧ fs = [] then none
      else
        (parseExpPart r3).map fun e =>
          sb.1 * ((digitsToNat ds : ℚ) + (digitsToNat fs : ℚ) / 10 ^ fs.length) * 10 ^ e
    else
      if ds = [] then none
      else (parseExpPart r2).map fun e => sb.1 * (digitsToNat ds : ℚ) * 10 ^ e
  | [] =>
    if ds = [] then none
    else (parseExpPart r2).map fun e => sb.1 * (digitsToNat ds : ℚ) * 10 ^ e

/-- Message of the numeric parse-failure error.  (In Rust the display text of
the native parse error is appended; no claim depends on that text.) -/
def parseFailMsg : List Char := "Failed to parse: ".toList

/-- The blanket `impl ScpiDeserialize for T: DeserializedWithParse`
(`src/primitives.rs`): compute the pattern length, consume it with
`read_exact`, then apply the native parser to the consumed prefix.  A parse
failure is reported after `read_exact` has already advanced the cursor. -/
def deserializeWithParse {α : Type} (prefixLenFn : List Char → Nat)
    (parse : List Char → Option α) (input : List Char) : POutcome α :=
  match read_exact input (prefixLenFn input) with
  | POutcome.ok pre rest =>
    match parse pre with
    | some v => POutcome.ok v rest
    | none => POutcome.err (Error.ResponseDecoding parseFailMsg) rest
  | POutcome.err e rest => POutcome.err e rest
  | POutcome.panic => POutcome.panic

/-- The `ScpiDeserialize` instance for an unsigned integer type with maximum `max`. -/
def uintDeserialize (max : Nat) : List Char → POutcome Nat :=
  deserializeWithParse uintPrefixLen (fun s => parseUnsigned s max)

/-- The `ScpiDeserialize` instance for a signed integer type with range `[min, max]`. -/
def sintDeserialize (min max : Int) : List Char → POutcome Int :=
  deserializeWithParse sintPrefixLen (fun s => parseSigned s min max)

/-- The `ScpiDeserialize` instance for `f32`/`f64` (both use the same pattern and
grammar; only the rounding of the final value differs, which is not modelled). -/
def floatDeserialize : List Char → POutcome ℚ :=
  deserializeWithParse floatPrefixLen parseFloat

def u8_deserialize : List Char → POutcome Nat := uintDeserialize (2 ^ 8 - 1)

def u16_deserialize : List Char → POutcome Nat := uintDeserialize (2 ^ 16 - 1)

def u32_deserialize : List Char → POutcome Nat := uintDeserialize (2 ^ 32 - 1)

def u64_deserialize : List Char → POutcome Nat := uintDeserialize (2 ^ 64 - 1)

def u128_deserialize : List Char → POutcome Nat := uintDeserialize (2 ^ 128 - 1)

def i8_deserialize : List Char → POutcome Int := sintDeserialize (-(2 ^ 7)) (2 ^ 7 - 1)

def i16_deserialize : List Char → POutcome Int := sintDeserialize (-(2 ^ 15)) (2 ^ 15 - 1)

def i32_deserialize : List Char → POutcome Int := sintDeserialize (-(2 ^ 31)) (2 ^ 31 - 1)

def i64_deserialize : List Char → POutcome Int := sintDeserialize (-(2 ^ 63)) (2 ^ 63 - 1)

def i128_deserialize : List Char → POutcome Int := sintDeserialize (-(2 ^ 127)) (2 ^ 127 - 1)

/-!
Serialization (`src/lib.rs`, `src/primitives.rs`, `src/enumerations.rs`).

A `ScpiSerialize` implementation is a function `α → List Char → List Char`
taking the value and the output buffer `out` and returning the buffer after
the call.  `String::push_str` is modelled as list append.
-/

/-- Model of `serialize_to_string` from the `ScpiSerialize` trait: serialize into a
fresh empty buffer. -/
def serialize_to_string {α : Type} (ser : α → List Char → List Char) (v : α) :
    List Char := ser v []

/-- Model of `impl<T: ToString> ScpiSerialize for SerializeToString<T>`
(`src/primitives.rs`): `out.push_str(self.0.to_string().as_str())`,
parameterised by the type's `to_string` rendering `toStr`.  Every numeric
primitive — the ten integer widths AND `f32`/`f64` — gains its serializer
through this wrapper via `impl_serialize_to_string!`; for the floats `toStr`
is Rust's shortest round-trip decimal rendering, which no statement below
needs to compute. -/
def serializeToString {α : Type} (toStr : α → List Char) (v : α)
    (out : List Char) : List Char := out ++ toStr v

/-- The generated `ScpiSerialize` for the unsigned integer primitives:
`SerializeToString(self).serialize(out)` is `out.push_str(self.to_string())`. -/
def natSerialize (n : Nat) (out : List Char) : List Char := out ++ natToChars n

/-- Signed-integer serialization (`out.push_str(self.to_string())`). -/
def intSerialize (v : Int) (out : List Char) : List Char := out ++ intToChars v

/-- Model of `impl ScpiSerialize for Option<T>` (`src/lib.rs`): serialize the inner
value when present, append nothing when absent. -/
def optionSerialize {α : Type} (ser : α → List Char → List Char) :
    Option α → List Char → List Char
  | some v, out => ser v out
  | none, out => out

/-!
Enumeration codec generator (`src/enumerations.rs`).

A declaration made through `scpi_enum!` is a closed ordered list of
(variant, literal) pairs; variants are modelled by their declaration index
into the literal list `decls`.
-/

/-- Message of the generated enum decoding error
(`format!("Unexpected token for {}: `{}`", stringify!(name), input)`). -/
def enumErrMsg (name input : List Char) : List Char :=
  "Unexpected token for ".toList ++ name ++ ": `".toList ++ input ++ "`".toList

/-- The generated `deserialize` body, one `match_literal` attempt per declared
variant in declaration order (`base` is the index of the first literal of
`decls` in the full declaration). -/
def enumDeserializeFrom (name input : List Char) :
    List (List Char) → Nat → POutcome Nat
  | [], _ => POutcome.err (Error.ResponseDecoding (enumErrMsg name input)) input
  | lit :: rest, base =>
    match match_literal input lit with
    | (Except.ok _, input2) => POutcome.ok base input2
    | (Except.error _, _) => enumDeserializeFrom name input rest (base + 1)

/-- The generated `ScpiDeserialize::deserialize` for an enum declared with
literals `decls` (in declaration order) and name `name`. -/
def enumDeserialize (name : List Char) (decls : List (List Char))
    (input : List Char) : POutcome Nat :=
  enumDeserializeFrom name input decls 0

/-- The generated `ScpiSerialize::serialize` for such an enum:
`out.push_str(literal)` of the variant's declared literal. -/
def enumSerialize (decls : List (List Char)) (i : Nat) (out : List Char) :
    List Char := out ++ decls.getD i []

/-!
Composite record codec generator (`impl_scpi_serialize!` in `src/lib.rs`):
an ordered list of parts, each a fixed literal (`out.push_str(lit)`) or a
field reference (`self.field.serialize(out)`; the optional `as` conversion is
folded into the field's serialization function). -/
inductive SPart (α : Type) where
  | lit (s : List Char)
  | field (f : α → List Char → List Char)

/-- The generated composite `serialize`: run the parts over the buffer in
declared order. -/
def compositeSerialize {α : Type} (parts : List (SPart α)) (v : α)
    (out : List Char) : List Char :=
  parts.foldl
    (fun acc p =>
      match p with
      | SPart.lit s => acc ++ s
      | SPart.field f => f v acc) out

/-- A serializer only appends: the buffer after the call is the old buffer
followed by exactly what the value renders to in a fresh buffer
(`serialize_to_string`). -/
def AppendOnly {α : Type} (ser : α → List Char → List Char) : Prop :=
  ∀ v out, ser v out = out ++ serialize_to_string ser v

/-- Model of `Regex::find` of the unanchored pattern `[0-9]+`: (start, end) character
positions of the leftmost maximal digit run, used to exercise `read_prefix`
with a pattern that can match away from the start. -/
def digitsFindFrom : List Char → Nat → Option (Nat × Nat)
  | [], _ => none
  | c :: rest, i =>
    if c.isDigit then some (i, i + 1 + (rest.takeWhile Char.isDigit).length)
    else digitsFindFrom rest (i + 1)

/-- Model of `Regex::find` of `[0-9]+` on the whole input. -/
def digitsFind (input : List Char) : Option (Nat × Nat) :=
  digitsFindFrom input 0

/-! Helper lemmas: characters, UTF-8 lengths, `takeWhile`. -/

theorem toNat_bounds_of_isDigit {c : Char} (h : c.isDigit = true) :
    48 ≤ c.toNat ∧ c.toNat ≤ 57 := by
  simp [Char.isDigit, Char.le_def] at h
  exact h

theorem utf8Len_of_toNat_lt {c : Char} (h : c.toNat < 128) : utf8Len c = 1 := by
  simp [utf8Len, h]

theorem utf8Len_of_isDigit {c : Char} (h : c.isDigit = true) : utf8Len c = 1 :=
  utf8Len_of_toNat_lt (Nat.lt_of_le_of_lt (toNat_bounds_of_isDigit h).2 (by decide))

theorem one_le_utf8Len (c : Char) : 1 ≤ utf8Len c := by
  unfold utf8Len
  split <;> try omega
  split <;> try omega
  split <;> omega

theorem length_le_byteLen (l : List Char) : l.length ≤ byteLen l := by
  induction l with
  | nil => simp [byteLen]
  | cons c rest ih =>
    have := one_le_utf8Len c
    simp only [List.length_cons, byteLen]
    omega

theorem takeWhile_append_all {p : Char → Bool} :
    ∀ s t : List Char, (∀ c ∈ s, p c) → (s ++ t).takeWhile p = s ++ t.takeWhile p
  | [], t, _ => by simp
  | c :: s, t, h => by
    have hc : p c := h c (by simp)
    simp only [List.cons_append, List.takeWhile_cons_of_pos hc]
    rw [takeWhile_append_all s t (fun x hx => h x (by simp [hx]))]

theorem dropWhile_append_all {p : Char → Bool} :
    ∀ s t : List Char, (∀ c ∈ s, p c) → (s ++ t).dropWhile p = t.dropWhile p
  | [], t, _ => by simp
  | c :: s, t, h => by
    have hc : p c := h c (by simp)
    simp only [List.cons_append, List.dropWhile_cons_of_pos hc]
    exact dropWhile_append_all s t (fun x hx => h x (by simp [hx]))

theorem prefix_all_le_takeWhile {p : Char → Bool} {s l : List Char}
    (hp : s <+: l) (h : ∀ c ∈ s, p c) : s.length ≤ (l.takeWhile p).length := by
  obtain ⟨t, rfl⟩ := hp
  rw [takeWhile_append_all s t h]
  simp

theorem take_takeWhile_length {p : Char → Bool} (l : List Char) :
    l.take (l.takeWhile p).length = l.takeWhile p :=
  ( List.prefix_iff_eq_take.mp ( List.takeWhile_prefix p)).symm

theorem drop_takeWhile_length {p : Char → Bool} (l : List Char) :
    l.drop (l.takeWhile p).length = l.dropWhile p := by
  nth_rewrite 2 [← List.takeWhile_append_dropWhile p l]
  rw [List.drop_left]

/-! Helper lemmas: `takeBytes` and `read_exact`. -/

theorem takeBytes_ascii :
    ∀ (l : List Char) (k : Nat), k ≤ l.length → (∀ c ∈ l.take k, utf8Len c = 1) →
      takeBytes l k = some (l.take k, l.drop k)
  | l, 0, _, _ => by simp [takeBytes]
  | [], k + 1, hk, _ => by simp at hk
  | c :: cs, k + 1, hk, ha => by
    have hc : utf8Len c = 1 := ha c (by simp)
    have ih := takeBytes_ascii cs k (by simpa using hk)
      (fun x hx => ha x (by simp [hx]))
    simp [takeBytes, hc, ih]

theorem takeBytes_some :
    ∀ (l : List Char) (n : Nat) (h t : List Char),
      takeBytes l n = some (h, t) → h ++ t = l ∧ byteLen h = n
  | l, 0, h, t, he => by
    simp [takeBytes] at he
    obtain ⟨rfl, rfl⟩ := he
    exact ⟨by simp, rfl⟩
  | [], n + 1, h, t, he => by simp [takeBytes] at he
  | c :: cs, n + 1, h, t, he => by
    simp only [takeBytes] at he
    split at he
    case isTrue hle =>
      cases hrec : takeBytes cs (n + 1 - utf8Len c) with
      | some p =>
        obtain ⟨h1, t1⟩ := p
        rw [hrec] at he
        simp at he
        obtain ⟨rfl, rfl⟩ := he
        have := takeBytes_some cs (n + 1 - utf8Len c) h1 t1 hrec
        constructor
        · simp [← this.1]
        · simp [byteLen, this.2]
          omega
      | none => rw [hrec] at he; simp at he
    case isFalse => simp at he

theorem read_exact_ascii (l : List Char) (k : Nat) (hk : k ≤ l.length)
    (ha : ∀ c ∈ l.take k, utf8Len c = 1) :
    read_exact l k = POutcome.ok (l.take k) (l.drop k) := by
  have h1 : ¬ byteLen l < k := Nat.not_lt.mpr (Nat.le_trans hk (length_le_byteLen l))
  simp [read_exact, h1, takeBytes_ascii l k hk ha]

/-! Helper lemmas: decimal rendering and its round trip. -/

theorem digitChar_isDigit {d : Nat} (h : d < 10) : (digitChar d).isDigit = true := by
  interval_cases d <;> decide

theorem digitChar_val {d : Nat} (h : d < 10) : (digitChar d).toNat - 48 = d := by
  interval_cases d <;> decide

theorem digitsToNat_append_one (l : List Char) (c : Char) :
    digitsToNat (l ++ [c]) = 10 * digitsToNat l + (c.toNat - 48) := by
  simp [digitsToNat]

theorem natToCharsCore_all_digits :
    ∀ (fuel n : Nat), ∀ c ∈ natToCharsCore fuel n, c.isDigit = true
  | 0, _, c, hc => by simp [natToCharsCore] at hc
  | fuel + 1, n, c, hc => by
    simp only [natToCharsCore] at hc
    split at hc
    · simp at hc
    · rw [List.mem_append] at hc
      rcases hc with hc | hc
      · exact natToCharsCore_all_digits fuel (n / 10) c hc
      · simp at hc
        rw [hc]
        exact digitChar_isDigit (show n % 10 < 10 from Nat.mod_lt n (by decide))

theorem digitsToNat_natToCharsCore :
    ∀ (fuel n : Nat), n ≤ fuel → digitsToNat (natToCharsCore fuel n) = n
  | 0, n, h => by
    interval_cases n
    simp [natToCharsCore, digitsToNat]
  | fuel + 1, n, h => by
    by_cases hn : n = 0
    · simp [natToCharsCore, hn, digitsToNat]
    · have hdiv : n / 10 ≤ fuel := by
        have hlt : n / 10 < n := Nat.div_lt_self (Nat.pos_of_ne_zero hn) (by decide)
        omega
      simp only [natToCharsCore, hn, if_false]
      rw [digitsToNat_append_one, digitsToNat_natToCharsCore fuel (n / 10) hdiv,
        digitChar_val (show n % 10 < 10 from Nat.mod_lt n (by decide))]
      omega

theorem natToChars_all_digits (n : Nat) : ∀ c ∈ natToChars n, c.isDigit = true := by
  intro c hc
  unfold natToChars at hc
  split at hc
  · simp at hc
    rw [hc]; decide
  · exact natToCharsCore_all_digits (n + 1) n c hc

theorem natToChars_ne_nil (n : Nat) : natToChars n ≠ [] := by
  unfold natToChars
  by_cases hn : n = 0
  · simp [hn]
  · simp only [hn, if_false, natToCharsCore, if_neg hn]
    simp

theorem digitsToNat_natToChars (n : Nat) : digitsToNat (natToChars n) = n := by
  unfold natToChars
  split
  · simp [digitsToNat]
    omega
  · exact digitsToNat_natToCharsCore (n + 1) n (by omega)

/-! Helper lemmas: the blanket numeric deserialize. -/

theorem deserializeWithParse_eq {α : Type} (prefixLenFn : List Char → Nat)
    (parse : List Char → Option α) (input : List Char)
    (hk : prefixLenFn input ≤ input.length)
    (ha : ∀ c ∈ input.take (prefixLenFn input), utf8Len c = 1) :
    deserializeWithParse prefixLenFn parse input =
      match parse (input.take (prefixLenFn input)) with
      | some v => POutcome.ok v (input.drop (prefixLenFn input))
      | none => POutcome.err (Error.ResponseDecoding parseFailMsg)
          (input.drop (prefixLenFn input)) := by
  unfold deserializeWithParse
  rw [read_exact_ascii input (prefixLenFn input) hk ha]

/-! Token predicates: the sets of strings matched by the three category
regexes, stated as shape decompositions (used to express that the matchers
return the longest matching prefix). -/

/-- Strings matched by `[+-]?`. -/
def IsSignOpt (s : List Char) : Prop := s = [] ∨ s = ['+'] ∨ s = ['-']

/-- Nonempty strings matched by `\d+` as modelled (ASCII digits). -/
def UIntTok (s : List Char) : Prop := s ≠ [] ∧ ∀ c ∈ s, c.isDigit = true

/-- Strings matched by `[+-]?\d+`. -/
def SIntTok (s : List Char) : Prop :=
  ∃ sg ds, IsSignOpt sg ∧ ds ≠ [] ∧ (∀ c ∈ ds, c.isDigit = true) ∧ s = sg ++ ds

/-- Strings matched by `(?:\.\d+)?`. -/
def FracPart (f : List Char) : Prop :=
  f = [] ∨ ∃ ds, ds ≠ [] ∧ (∀ c ∈ ds, c.isDigit = true) ∧ f = '.' :: ds

/-- Strings matched by `(?:[eE][+-]?\d+)?`. -/
def ExpPart (e : List Char) : Prop :=
  e = [] ∨ ∃ m sg ds, (m = 'e' ∨ m = 'E') ∧ IsSignOpt sg ∧ ds ≠ [] ∧
    (∀ c ∈ ds, c.isDigit = true) ∧ e = m :: (sg ++ ds)

/-- Strings matched by the full floating-point pattern. -/
def FloatTok (s : List Char) : Prop :=
  ∃ sg d f e, IsSignOpt sg ∧ (∀ c ∈ d, c.isDigit = true) ∧ FracPart f ∧
    ExpPart e ∧ s = sg ++ d ++ f ++ e

theorem not_sign_of_isDigit {c : Char} (h : c.isDigit = true) :
    ¬(c = '+' ∨ c = '-') := by
  rintro (rfl | rfl) <;> simp [Char.isDigit] at h

theorem not_isDigit_of_sign {c : Char} (h : c = '+' ∨ c = '-') :
    c.isDigit = false := by
  rcases h with rfl | rfl <;> decide

/-! Maximality and shape of the unsigned-integer matcher. -/

theorem uintPrefixLen_le (input : List Char) : uintPrefixLen input ≤ input.length :=
  ( List.takeWhile_prefix Char.isDigit).length_le

theorem take_uintPrefixLen (input : List Char) :
    input.take (uintPrefixLen input) = input.takeWhile Char.isDigit :=
  take_takeWhile_length input

theorem drop_uintPrefixLen (input : List Char) :
    input.drop (uintPrefixLen input) = input.dropWhile Char.isDigit :=
  drop_takeWhile_length input

theorem uint_take_ascii (input : List Char) :
    ∀ c ∈ input.take (uintPrefixLen input), utf8Len c = 1 := by
  intro c hc
  rw [take_uintPrefixLen] at hc
  exact utf8Len_of_isDigit (List.mem_takeWhile_imp hc)

theorem uint_longest {s input : List Char} (ht : UIntTok s) (hp : s <+: input) :
    s.length ≤ uintPrefixLen input :=
  prefix_all_le_takeWhile hp ht.2

theorem uint_matches {input : List Char} (h : 0 < uintPrefixLen input) :
    UIntTok (input.take (uintPrefixLen input)) := by
  rw [take_uintPrefixLen]
  refine ⟨?_, fun c hc => List.mem_takeWhile_imp hc⟩
  intro hnil
  rw [uintPrefixLen, hnil] at h
  simp at h

/-! Maximality and shape of the signed-integer matcher. -/

theorem sintPrefixLen_le (input : List Char) : sintPrefixLen input ≤ input.length := by
  cases input with
  | nil => simp [sintPrefixLen]
  | cons c rest =>
    simp only [sintPrefixLen]
    split
    · split
      · omega
      · have := (show List.takeWhile Char.isDigit rest <+: rest from
          List.takeWhile_prefix _).length_le
        simp only [List.length_cons]
        omega
    · exact uintPrefixLen_le (c :: rest)

theorem sint_take_ascii (input : List Char) :
    ∀ c ∈ input.take (sintPrefixLen input), utf8Len c = 1 := by
  cases input with
  | nil => simp
  | cons c rest =>
    simp only [sintPrefixLen]
    split
    case isTrue hsign =>
      split
      case isTrue => simp
      case isFalse hds =>
        intro x hx
        rw [List.take_succ_cons] at hx
        rcases List.mem_cons.mp hx with rfl | hx
        · rcases hsign with rfl | rfl <;> decide
        · rw [take_takeWhile_length] at hx
          exact utf8Len_of_isDigit (List.mem_takeWhile_imp hx)
    case isFalse => exact uint_take_ascii (c :: rest)

theorem sint_longest {s input : List Char} (ht : SIntTok s) (hp : s <+: input) :
    s.length ≤ sintPrefixLen input := by
  obtain ⟨sg, ds, hsg, hne, hdig, rfl⟩ := ht
  rcases hsg with rfl | rfl | rfl
  · rw [List.nil_append] at hp ⊢
    obtain ⟨d0, ds', rfl⟩ : ∃ d0 ds', ds = d0 :: ds' := by
      cases ds with
      | nil => exact absurd rfl hne
      | cons a b => exact ⟨a, b, rfl⟩
    obtain ⟨u, rfl⟩ := hp
    have hd0 : d0.isDigit = true := hdig d0 (by simp)
    simp only [List.cons_append, sintPrefixLen]
    rw [if_neg (not_sign_of_isDigit hd0)]
    exact prefix_all_le_takeWhile ⟨u, by simp⟩ hdig
  all_goals {
    obtain ⟨u, rfl⟩ := hp
    have hle : ds.length ≤ ((ds ++ u).takeWhile Char.isDigit).length :=
      prefix_all_le_takeWhile ⟨u, rfl⟩ hdig
    have hne2 : (ds ++ u).takeWhile Char.isDigit ≠ [] := by
      intro h0
      rw [h0] at hle
      simp at hle
      exact hne hle
    simp only [List.singleton_append, List.cons_append, List.nil_append,
      sintPrefixLen]
    rw [if_pos (by simp), if_neg hne2]
    simp only [List.length_cons]
    omega
  }

theorem sint_matches {input : List Char} (h : 0 < sintPrefixLen input) :
    SIntTok (input.take (sintPrefixLen input)) := by
  cases input with
  | nil => simp [sintPrefixLen] at h
  | cons c rest =>
    by_cases hsign : c = '+' ∨ c = '-'
    · simp only [sintPrefixLen, if_pos hsign] at h ⊢
      by_cases hds : rest.takeWhile Char.isDigit = []
      · rw [if_pos hds] at h
        simp at h
      · rw [if_neg hds] at h ⊢
        rw [List.take_succ_cons, take_takeWhile_length]
        exact ⟨[c], rest.takeWhile Char.isDigit, by
            rcases hsign with rfl | rfl
            · exact Or.inr (Or.inl rfl)
            · exact Or.inr (Or.inr rfl),
          hds, fun x hx => List.mem_takeWhile_imp hx, by simp⟩
    · simp only [sintPrefixLen, if_neg hsign] at h ⊢
      have h2 : 0 < uintPrefixLen (c :: rest) := h
      obtain ⟨hne, hdig⟩ := uint_matches h2
      rw [take_uintPrefixLen] at hne hdig
      rw [show ((c :: rest).takeWhile Char.isDigit).length =
        uintPrefixLen (c :: rest) from rfl, take_uintPrefixLen]
      exact ⟨[], (c :: rest).takeWhile Char.isDigit, Or.inl rfl, hne, hdig, by simp⟩

/-! Structure of the floating-point matcher's components. -/

theorem signSpan_append (input : List Char) :
    (signSpan input).1 ++ (signSpan input).2 = input := by
  cases input with
  | nil => simp [signSpan]
  | cons c rest =>
    simp only [signSpan]
    split <;> simp

theorem signSpan_sign (input : List Char) : IsSignOpt (signSpan input).1 := by
  cases input with
  | nil => exact Or.inl rfl
  | cons c rest =>
    simp only [signSpan]
    split
    case isTrue h =>
      rcases h with rfl | rfl
      · exact Or.inr (Or.inl rfl)
      · exact Or.inr (Or.inr rfl)
    case isFalse => exact Or.inl rfl

theorem digitSpan_append (input : List Char) :
    (digitSpan input).1 ++ (digitSpan input).2 = input :=
  List.takeWhile_append_dropWhile Char.isDigit input

theorem digitSpan_digits (input : List Char) :
    ∀ c ∈ (digitSpan input).1, c.isDigit = true :=
  fun _ hc => List.mem_takeWhile_imp hc

theorem fracSpan_append (input : List Char) :
    (fracSpan input).1 ++ (fracSpan input).2 = input := by
  cases input with
  | nil => simp [fracSpan]
  | cons c rest =>
    simp only [fracSpan]
    split
    case isTrue hc =>
      split
      case isTrue => simp
      case isFalse =>
        subst hc
        simpa using List.takeWhile_append_dropWhile Char.isDigit rest
    case isFalse => simp

theorem fracSpan_frac (input : List Char) : FracPart (fracSpan input).1 := by
  cases input with
  | nil => exact Or.inl rfl
  | cons c rest =>
    simp only [fracSpan]
    split
    case isTrue hc =>
      split
      case isTrue => exact Or.inl rfl
      case isFalse hds =>
        subst hc
        exact Or.inr ⟨rest.takeWhile Char.isDigit, hds,
          fun x hx => List.mem_takeWhile_imp hx, rfl⟩
    case isFalse => exact Or.inl rfl

theorem fracSpan_not_dot {input : List Char} (h : ∀ rest, input ≠ '.' :: rest) :
    fracSpan input = ([], input) := by
  cases input with
  | nil => simp [fracSpan]
  | cons c rest =>
    simp only [fracSpan]
    rw [if_neg]
    intro hc
    exact h rest (by rw [hc])

theorem expSpan_append (input : List Char) :
    (expSpan input).1 ++ (expSpan input).2 = input := by
  cases input with
  | nil => simp [expSpan]
  | cons c rest =>
    simp only [expSpan]
    split
    case isTrue hc =>
      cases rest with
      | nil => simp
      | cons c2 rest2 =>
        simp only []
        split
        case isTrue hc2 =>
          split
          case isTrue => simp
          case isFalse =>
            simpa using congrArg (fun l => c :: c2 :: l)
              (List.takeWhile_append_dropWhile Char.isDigit rest2)
        case isFalse hc2 =>
          split
          case isTrue => simp
          case isFalse =>
            simpa using congrArg (fun l => c :: l)
              (List.takeWhile_append_dropWhile Char.isDigit (c2 :: rest2))
    case isFalse => simp

theorem expSpan_exp (input : List Char) : ExpPart (expSpan input).1 := by
  cases input with
  | nil => exact Or.inl rfl
  | cons c rest =>
    simp only [expSpan]
    split
    case isTrue hc =>
      cases rest with
      | nil => exact Or.inl rfl
      | cons c2 rest2 =>
        simp only []
        split
        case isTrue hc2 =>
          split
          case isTrue => exact Or.inl rfl
          case isFalse hds =>
            refine Or.inr ⟨c, [c2], rest2.takeWhile Char.isDigit, hc, ?_, hds,
              fun x hx => List.mem_takeWhile_imp hx, rfl⟩
            rcases hc2 with rfl | rfl
            · exact Or.inr (Or.inl rfl)
            · exact Or.inr (Or.inr rfl)
        case isFalse hc2 =>
          split
          case isTrue => exact Or.inl rfl
          case isFalse hds =>
            exact Or.inr ⟨c, [], (c2 :: rest2).takeWhile Char.isDigit, hc,
              Or.inl rfl, hds, fun x hx => List.mem_takeWhile_imp hx, by simp⟩
    case isFalse => exact Or.inl rfl

theorem expSpan_not_exp {input : List Char}
    (h : ∀ c rest, input = c :: rest → ¬(c = 'e' ∨ c = 'E')) :
    expSpan input = ([], input) := by
  cases input with
  | nil => simp [expSpan]
  | cons c rest =>
    simp only [expSpan]
    rw [if_neg (h c rest rfl)]

theorem floatSpan_append (input : List Char) :
    (floatSpan input).1 ++ (floatSpan input).2 = input := by
  simp only [floatSpan, List.append_assoc]
  rw [expSpan_append, fracSpan_append, digitSpan_append, signSpan_append]

theorem floatSpan_tok (input : List Char) : FloatTok (floatSpan input).1 :=
  ⟨(signSpan input).1, (digitSpan (signSpan input).2).1,
    (fracSpan (digitSpan (signSpan input).2).2).1,
    (expSpan (fracSpan (digitSpan (signSpan input).2).2).2).1,
    signSpan_sign input, digitSpan_digits (signSpan input).2,
    fracSpan_frac (digitSpan (signSpan input).2).2,
    expSpan_exp (fracSpan (digitSpan (signSpan input).2).2).2, rfl⟩

theorem floatPrefixLen_le (input : List Char) :
    floatPrefixLen input ≤ input.length := by
  have h := floatSpan_append input
  have : ((floatSpan input).1 ++ (floatSpan input).2).length = input.length := by
    rw [h]
  simp only [List.length_append] at this
  unfold floatPrefixLen
  omega

theorem take_floatPrefixLen (input : List Char) :
    input.take (floatPrefixLen input) = (floatSpan input).1 := by
  have h : (floatSpan input).1 <+: input := ⟨(floatSpan input).2, floatSpan_append input⟩
  exact (List.prefix_iff_eq_take.mp h).symm

theorem floatTok_ascii {s : List Char} (ht : FloatTok s) :
    ∀ c ∈ s, utf8Len c = 1 := by
  obtain ⟨sg, d, f, e, hsg, hd, hf, he, rfl⟩ := ht
  intro c hc
  simp only [List.mem_append] at hc
  rcases hc with ((hc | hc) | hc) | hc
  · rcases hsg with rfl | rfl | rfl
    · simp at hc
    · simp at hc; rw [hc]; decide
    · simp at hc; rw [hc]; decide
  · exact utf8Len_of_isDigit (hd c hc)
  · rcases hf with rfl | ⟨ds, hne, hdig, rfl⟩
    · simp at hc
    · rcases List.mem_cons.mp hc with rfl | hc
      · decide
      · exact utf8Len_of_isDigit (hdig c hc)
  · rcases he with rfl | ⟨m, sg2, ds, hm, hsg2, hne, hdig, rfl⟩
    · simp at hc
    · rcases List.mem_cons.mp hc with rfl | hc
      · rcases hm with rfl | rfl <;> decide
      · rcases List.mem_append.mp hc with hc | hc
        · rcases hsg2 with rfl | rfl | rfl
          · simp at hc
          · simp at hc; rw [hc]; decide
          · simp at hc; rw [hc]; decide
        · exact utf8Len_of_isDigit (hdig c hc)

theorem float_take_ascii (input : List Char) :
    ∀ c ∈ input.take (floatPrefixLen input), utf8Len c = 1 := by
  rw [take_floatPrefixLen]
  exact floatTok_ascii (floatSpan_tok input)

/-! Maximality of the floating-point matcher: no prefix of the input that
matches the pattern is longer than the greedy match.  First, evaluation
helpers for the component matchers on explicitly shaped inputs. -/

theorem not_isDigit_of_expchar {m : Char} (hm : m = 'e' ∨ m = 'E') :
    m.isDigit = false := by
  rcases hm with rfl | rfl <;> decide

theorem fracSpan_cons_dot (rest : List Char) :
    fracSpan ('.' :: rest) =
      if rest.takeWhile Char.isDigit = [] then ([], '.' :: rest)
      else ('.' :: rest.takeWhile Char.isDigit, rest.dropWhile Char.isDigit) := by
  simp [fracSpan]

theorem expSpan_cons_sign {m c2 : Char} (rest2 : List Char)
    (hm : m = 'e' ∨ m = 'E') (hc2 : c2 = '+' ∨ c2 = '-') :
    expSpan (m :: c2 :: rest2) =
      if rest2.takeWhile Char.isDigit = [] then ([], m :: c2 :: rest2)
      else (m :: c2 :: rest2.takeWhile Char.isDigit,
        rest2.dropWhile Char.isDigit) := by
  simp only [expSpan, if_pos hm, if_pos hc2]

theorem expSpan_cons_nosign {m c2 : Char} (rest2 : List Char)
    (hm : m = 'e' ∨ m = 'E') (hc2 : ¬(c2 = '+' ∨ c2 = '-')) :
    expSpan (m :: c2 :: rest2) =
      if (c2 :: rest2).takeWhile Char.isDigit = [] then ([], m :: c2 :: rest2)
      else (m :: (c2 :: rest2).takeWhile Char.isDigit,
        (c2 :: rest2).dropWhile Char.isDigit) := by
  simp only [expSpan, if_pos hm, if_neg hc2]

theorem takeWhile_ne_nil_of_digits {ds t : List Char} (hne : ds ≠ [])
    (hdig : ∀ c ∈ ds, c.isDigit = true) (hp : ds <+: t) :
    t.takeWhile Char.isDigit ≠ [] := by
  have hle : ds.length ≤ (t.takeWhile Char.isDigit).length :=
    prefix_all_le_takeWhile hp hdig
  intro h0
  rw [h0] at hle
  simp at hle
  exact hne hle

theorem exp_longest {e t : List Char} (he : ExpPart e) (hp : e <+: t) :
    e.length ≤ (expSpan t).1.length := by
  rcases he with rfl | ⟨m, sg, ds, hm, hsg, hne, hdig, rfl⟩
  · simp
  · obtain ⟨u, rfl⟩ := hp
    obtain ⟨d0, ds', rfl⟩ : ∃ d0 ds', ds = d0 :: ds' := by
      cases ds with
      | nil => exact absurd rfl hne
      | cons a b => exact ⟨a, b, rfl⟩
    have hd0 : d0.isDigit = true := hdig d0 (by simp)
    have hpref : d0 :: ds' <+: d0 :: (ds' ++ u) := ⟨u, by simp⟩
    have hne2 := takeWhile_ne_nil_of_digits hne hdig hpref
    have hle : (d0 :: ds').length ≤
        ((d0 :: (ds' ++ u)).takeWhile Char.isDigit).length :=
      prefix_all_le_takeWhile hpref hdig
    rcases hsg with rfl | rfl | rfl
    · have hshape : (m :: ([] ++ d0 :: ds')) ++ u = m :: d0 :: (ds' ++ u) := by simp
      rw [hshape, expSpan_cons_nosign (ds' ++ u) hm (not_sign_of_isDigit hd0)]
      rw [if_neg hne2]
      simp only [List.length_cons, List.nil_append] at hle ⊢
      omega
    all_goals {
      first
      | rw [show (m :: (['+'] ++ d0 :: ds')) ++ u = m :: '+' :: (d0 :: (ds' ++ u))
            from by simp,
          expSpan_cons_sign (d0 :: (ds' ++ u)) hm (Or.inl rfl)]
      | rw [show (m :: (['-'] ++ d0 :: ds')) ++ u = m :: '-' :: (d0 :: (ds' ++ u))
            from by simp,
          expSpan_cons_sign (d0 :: (ds' ++ u)) hm (Or.inr rfl)]
      rw [if_neg hne2]
      simp only [List.length_cons, List.singleton_append] at hle ⊢
      omega
    }

theorem fracexp_longest {f e t : List Char} (hf : FracPart f) (he : ExpPart e)
    (hp : f ++ e <+: t) :
    f.length + e.length ≤
      (fracSpan t).1.length + (expSpan (fracSpan t).2).1.length := by
  rcases hf with rfl | ⟨ds, hne, hdig, rfl⟩
  · rw [List.nil_append] at hp
    rcases he with rfl | ⟨m, sg, ds, hm, hsg, hne, hdig, rfl⟩
    · simp
    · obtain ⟨u, rfl⟩ := hp
      have hfs : fracSpan ((m :: (sg ++ ds)) ++ u) = ([], (m :: (sg ++ ds)) ++ u) := by
        apply fracSpan_not_dot
        intro rest hcontra
        rw [List.cons_append] at hcontra
        injection hcontra with h1 _
        rcases hm with rfl | rfl <;> exact absurd h1 (by decide)
      rw [hfs]
      simp only [List.length_nil, Nat.zero_add]
      exact exp_longest (Or.inr ⟨m, sg, ds, hm, hsg, hne, hdig, rfl⟩) ⟨u, rfl⟩
  · obtain ⟨u, rfl⟩ := hp
    rcases he with rfl | ⟨m, sg2, ds2, hm, hsg2, hne2, hdig2, rfl⟩
    · have hshape : ('.' :: ds ++ []) ++ u = '.' :: (ds ++ u) := by simp
      rw [hshape, fracSpan_cons_dot (ds ++ u),
        if_neg (takeWhile_ne_nil_of_digits hne hdig ⟨u, rfl⟩)]
      have hle : ds.length ≤ ((ds ++ u).takeWhile Char.isDigit).length :=
        prefix_all_le_takeWhile ⟨u, rfl⟩ hdig
      simp only [List.length_cons, List.length_append, List.length_nil]
      omega
    · have htw : (ds ++ ((m :: (sg2 ++ ds2)) ++ u)).takeWhile Char.isDigit = ds := by
        rw [takeWhile_append_all ds _ hdig, List.cons_append,
          List.takeWhile_cons_of_neg (by rw [not_isDigit_of_expchar hm]; simp),
          List.append_nil]
      have hdw : (ds ++ ((m :: (sg2 ++ ds2)) ++ u)).dropWhile Char.isDigit =
          (m :: (sg2 ++ ds2)) ++ u := by
        rw [dropWhile_append_all ds _ hdig, List.cons_append,
          List.dropWhile_cons_of_neg (by rw [not_isDigit_of_expchar hm]; simp)]
      have hshape : ('.' :: ds ++ m :: (sg2 ++ ds2)) ++ u =
          '.' :: (ds ++ ((m :: (sg2 ++ ds2)) ++ u)) := by simp
      rw [hshape, fracSpan_cons_dot, htw, hdw, if_neg hne]
      have hexp := exp_longest (Or.inr ⟨m, sg2, ds2, hm, hsg2, hne2, hdig2, rfl⟩)
        (⟨u, rfl⟩ : (m :: (sg2 ++ ds2)) <+: ((m :: (sg2 ++ ds2)) ++ u))
      simp only [List.length_cons, List.length_append] at hexp ⊢
      omega

theorem dfe_longest {d f e t : List Char} (hd : ∀ c ∈ d, c.isDigit = true)
    (hf : FracPart f) (he : ExpPart e) (hp : d ++ (f ++ e) <+: t) :
    d.length + (f.length + e.length) ≤
      (digitSpan t).1.length + ((fracSpan (digitSpan t).2).1.length +
        (expSpan (fracSpan (digitSpan t).2).2).1.length) := by
  obtain ⟨u, rfl⟩ := hp
  by_cases hfe : f ++ e = []
  · obtain ⟨rfl, rfl⟩ := List.append_eq_nil.mp hfe
    have hle : d.length ≤
        (((d ++ ([] ++ [])) ++ u).takeWhile Char.isDigit).length :=
      prefix_all_le_takeWhile ⟨u, by simp⟩ hd
    simp only [digitSpan, List.length_nil]
    omega
  · obtain ⟨c0, rest0, hc0eq, hc0⟩ :
        ∃ c0 rest0, f ++ e = c0 :: rest0 ∧ c0.isDigit = false := by
      rcases hf with rfl | ⟨ds, hne, hdig, rfl⟩
      · rcases he with rfl | ⟨m, sg, ds, hm, hsg, hne, hdig, rfl⟩
        · exact absurd rfl hfe
        · exact ⟨m, sg ++ ds, by simp, not_isDigit_of_expchar hm⟩
      · exact ⟨'.', ds ++ e, by simp, by decide⟩
    have hX : (d ++ (f ++ e)) ++ u = d ++ (c0 :: (rest0 ++ u)) := by
      rw [List.append_assoc, hc0eq]
      simp
    rw [hX]
    have htw : (d ++ (c0 :: (rest0 ++ u))).takeWhile Char.isDigit = d := by
      rw [takeWhile_append_all d _ hd,
        List.takeWhile_cons_of_neg (by rw [hc0]; simp), List.append_nil]
    have hdw : (d ++ (c0 :: (rest0 ++ u))).dropWhile Char.isDigit =
        c0 :: (rest0 ++ u) := by
      rw [dropWhile_append_all d _ hd,
        List.dropWhile_cons_of_neg (by rw [hc0]; simp)]
    simp only [digitSpan]
    rw [htw, hdw]
    have hfe2 : f ++ e <+: c0 :: (rest0 ++ u) := by
      rw [hc0eq]
      exact ⟨u, by simp⟩
    have := fracexp_longest hf he hfe2
    omega

theorem signSpan_cons_sign {c : Char} (rest : List Char) (hc : c = '+' ∨ c = '-') :
    signSpan (c :: rest) = ([c], rest) := by
  simp only [signSpan, if_pos hc]

theorem signSpan_cons_nosign {c : Char} (rest : List Char)
    (hc : ¬(c = '+' ∨ c = '-')) : signSpan (c :: rest) = ([], c :: rest) := by
  simp only [signSpan, if_neg hc]

theorem floatPrefixLen_parts (input : List Char) :
    floatPrefixLen input =
      (signSpan input).1.length + ((digitSpan (signSpan input).2).1.length +
        ((fracSpan (digitSpan (signSpan input).2).2).1.length +
          (expSpan (fracSpan (digitSpan (signSpan input).2).2).2).1.length)) := by
  simp only [floatPrefixLen, floatSpan, List.length_append]
  omega

theorem dfe_head_not_sign {d f e : List Char} {x : Char} {xs : List Char}
    (hd : ∀ c ∈ d, c.isDigit = true) (hf : FracPart f) (he : ExpPart e)
    (heq : d ++ (f ++ e) = x :: xs) : ¬(x = '+' ∨ x = '-') := by
  cases d with
  | cons a d' =>
    rw [List.cons_append] at heq
    injection heq with h1 _
    rw [← h1]
    exact not_sign_of_isDigit (hd a (by simp))
  | nil =>
    rw [List.nil_append] at heq
    rcases hf with rfl | ⟨ds, hne, hdig, rfl⟩
    · rcases he with rfl | ⟨m, sg, ds, hm, hsg, hne, hdig, rfl⟩
      · simp at heq
      · rw [List.nil_append] at heq
        injection heq with h1 _
        rw [← h1]
        rcases hm with rfl | rfl <;> decide
    · rw [List.cons_append] at heq
      injection heq with h1 _
      rw [← h1]
      decide

theorem float_longest {s input : List Char} (ht : FloatTok s) (hp : s <+: input) :
    s.length ≤ floatPrefixLen input := by
  obtain ⟨sg, d, f, e, hsg, hd, hf, he, rfl⟩ := ht
  rcases hsg with rfl | rfl | rfl
  · simp only [List.nil_append] at hp ⊢
    cases input with
    | nil =>
      have h0 : d ++ f ++ e = [] := List.prefix_nil.mp hp
      simp [h0]
    | cons c rest =>
      by_cases hc : c = '+' ∨ c = '-'
      · cases hdfe : d ++ (f ++ e) with
        | nil =>
          obtain ⟨rfl, h1⟩ := List.append_eq_nil.mp hdfe
          obtain ⟨rfl, rfl⟩ := List.append_eq_nil.mp h1
          simp
        | cons x xs =>
          exfalso
          rw [← List.append_assoc] at hdfe
          rw [hdfe] at hp
          obtain ⟨u, habs⟩ := hp
          rw [List.cons_append] at habs
          injection habs with h1 _
          exact dfe_head_not_sign hd hf he (by rw [List.append_assoc] at hdfe; exact hdfe)
            (h1 ▸ hc)
      · rw [floatPrefixLen_parts, signSpan_cons_nosign rest hc]
        have hdfe : d ++ (f ++ e) <+: c :: rest := by
          rw [← List.append_assoc]
          exact hp
        have := dfe_longest hd hf he hdfe
        simp only [List.length_nil, List.length_append] at this ⊢
        omega
  all_goals {
    obtain ⟨u, rfl⟩ := hp
    first
    | rw [show ((['+'] ++ d ++ f ++ e) ++ u) =
          '+' :: ((d ++ (f ++ e)) ++ u) from by simp,
        floatPrefixLen_parts, signSpan_cons_sign _ (Or.inl rfl)]
    | rw [show ((['-'] ++ d ++ f ++ e) ++ u) =
          '-' :: ((d ++ (f ++ e)) ++ u) from by simp,
        floatPrefixLen_parts, signSpan_cons_sign _ (Or.inr rfl)]
    have := dfe_longest hd hf he (⟨u, rfl⟩ : d ++ (f ++ e) <+: (d ++ (f ++ e)) ++ u)
    simp only [List.length_append, List.length_cons, List.length_singleton] at this ⊢
    omega
  }

/-! Helper lemmas: the generated enum codec. -/

theorem enumDeserializeFrom_first_match (name : List Char) :
    ∀ (decls : List (List Char)) (base i : Nat) (input : List Char),
      i < decls.length → decls.getD i [] <+: input →
      (∀ j, j < i → ¬ decls.getD j [] <+: input) →
      enumDeserializeFrom name input decls base =
        POutcome.ok (base + i) (input.drop (decls.getD i []).length)
  | [], _, i, _, hi, _, _ => by simp at hi
  | lit :: rest, base, 0, input, _, hpre, _ => by
    simp only [List.getD_cons_zero] at hpre ⊢
    simp [enumDeserializeFrom, match_literal, if_pos hpre]
  | lit :: rest, base, i + 1, input, hi, hpre, hno => by
    have h0 : ¬ lit <+: input := by
      have := hno 0 (Nat.succ_pos i)
      simpa using this
    simp only [List.getD_cons_succ] at hpre ⊢
    simp only [enumDeserializeFrom, match_literal, if_neg h0]
    rw [enumDeserializeFrom_first_match name rest (base + 1) i input
      (by simpa using hi) hpre
      (fun j hj => by
        have := hno (j + 1) (by omega)
        simpa using this)]
    congr 1
    omega

theorem enumDeserializeFrom_no_match (name : List Char) :
    ∀ (decls : List (List Char)) (base : Nat) (input : List Char),
      (∀ j, j < decls.length → ¬ decls.getD j [] <+: input) →
      enumDeserializeFrom name input decls base =
        POutcome.err (Error.ResponseDecoding (enumErrMsg name input)) input
  | [], _, _, _ => rfl
  | lit :: rest, base, input, hno => by
    have h0 : ¬ lit <+: input := by
      have := hno 0 (by simp)
      simpa using this
    simp only [enumDeserializeFrom, match_literal, if_neg h0]
    exact enumDeserializeFrom_no_match name rest (base + 1) input
      (fun j hj => by
        have := hno (j + 1) (by simpa using hj)
        simpa using this)

theorem enumDeserialize_first_match {name : List Char} {decls : List (List Char)}
    {i : Nat} {input : List Char} (hi : i < decls.length)
    (hpre : decls.getD i [] <+: input)
    (hno : ∀ j, j < i → ¬ decls.getD j [] <+: input) :
    enumDeserialize name decls input =
      POutcome.ok i (input.drop (decls.getD i []).length) := by
  have := enumDeserializeFrom_first_match name decls 0 i input hi hpre hno
  simpa [enumDeserialize] using this

theorem enumDeserialize_no_match {name : List Char} {decls : List (List Char)}
    {input : List Char} (hno : ∀ j, j < decls.length → ¬ decls.getD j [] <+: input) :
    enumDeserialize name decls input =
      POutcome.err (Error.ResponseDecoding (enumErrMsg name input)) input :=
  enumDeserializeFrom_no_match name decls 0 input hno

/-! Helper lemmas: serializers only append. -/

theorem appendOnly_iff {α : Type} (ser : α → List Char → List Char) :
    AppendOnly ser ↔ ∀ v out, ser v out = out ++ ser v [] := Iff.rfl

theorem serializeToString_appendOnly {α : Type} (toStr : α → List Char) :
    AppendOnly (serializeToString toStr) := by
  intro v out
  simp [serializeToString, serialize_to_string]

theorem natSerialize_appendOnly : AppendOnly natSerialize := by
  intro v out
  simp [natSerialize, serialize_to_string]

theorem intSerialize_appendOnly : AppendOnly intSerialize := by
  intro v out
  simp [intSerialize, serialize_to_string]

theorem enumSerialize_appendOnly (decls : List (List Char)) :
    AppendOnly (enumSerialize decls) := by
  intro v out
  simp [enumSerialize, serialize_to_string]

theorem optionSerialize_appendOnly {α : Type} (ser : α → List Char → List Char)
    (h : AppendOnly ser) : AppendOnly (optionSerialize ser) := by
  intro v out
  cases v with
  | none => simp [optionSerialize, serialize_to_string]
  | some x => simpa [optionSerialize, serialize_to_string] using h x out

theorem compositeSerialize_appendOnly {α : Type} (parts : List (SPart α))
    (hparts : ∀ f, SPart.field f ∈ parts → AppendOnly f) :
    AppendOnly (compositeSerialize parts) := by
  suffices h : ∀ v out, compositeSerialize parts v out = out ++ compositeSerialize parts v [] by
    intro v out
    exact h v out
  induction parts with
  | nil => intro v out; simp [compositeSerialize]
  | cons p rest ih =>
    intro v out
    have hrest : ∀ f, SPart.field f ∈ rest → AppendOnly f :=
      fun f hf => hparts f (List.mem_cons_of_mem p hf)
    have hstep : ∀ acc, (match p with
        | SPart.lit s => acc ++ s
        | SPart.field f => f v acc) =
        acc ++ (match p with
          | SPart.lit s => [] ++ s
          | SPart.field f => f v []) := by
      intro acc
      cases p with
      | lit s => simp
      | field f => simpa [serialize_to_string] using hparts f (by simp) v acc
    have hunfold : ∀ out2, compositeSerialize (p :: rest) v out2 =
        compositeSerialize rest v (match p with
          | SPart.lit s => out2 ++ s
          | SPart.field f => f v out2) := by
      intro out2
      rfl
    rw [hunfold, hunfold, hstep out, hstep []]
    rw [ih hrest v (out ++ _), ih hrest v ([] ++ _)]
    simp

/-! Helper lemmas: first-occurrence search and the digit-run matcher. -/

theorem charIdxOf_none_iff (d : Char) :
    ∀ l : List Char, charIdxOf d l = none ↔ d ∉ l := by
  intro l
  induction l with
  | nil => simp [charIdxOf]
  | cons c rest ih =>
    simp only [charIdxOf]
    by_cases hc : c = d
    · simp [hc]
    · rw [if_neg hc]
      cases h : charIdxOf d rest with
      | some k =>
        simp only [h]
        constructor
        · intro hcontra; exact absurd hcontra (by simp)
        · intro hnm
          exfalso
          rw [h] at ih
          have : d ∈ rest := by
            by_contra hmem
            exact (by simp : (some k : Option Nat) ≠ none) (ih.mpr hmem)
          exact hnm (List.mem_cons_of_mem c this)
      | none =>
        rw [h] at ih
        simp only [h]
        have hd : d ∉ rest := ih.mp rfl
        constructor
        · intro _ hcontra
          rcases List.mem_cons.mp hcontra with h2 | h2
          · exact hc h2.symm
          · exact hd h2
        · intro _; trivial

theorem charIdxOf_spec (d : Char) :
    ∀ (l : List Char) (k : Nat), charIdxOf d l = some k →
      d ∉ l.take k ∧ ∃ rest, l.drop k = d :: rest ∧ rest = l.drop (k + 1)
  | [], k, h => by simp [charIdxOf] at h
  | c :: restl, k, h => by
    simp only [charIdxOf] at h
    by_cases hc : c = d
    · rw [if_pos hc] at h
      have hk : k = 0 := by
        have := h
        simp at this
        omega
      subst hk
      subst hc
      exact ⟨by simp, restl, by simp, by simp⟩
    · rw [if_neg hc] at h
      cases h2 : charIdxOf d restl with
      | some k2 =>
        rw [h2] at h
        simp at h
        obtain ⟨hmem, rest2, hdrop, hdrop2⟩ := charIdxOf_spec d restl k2 h2
        subst h
        constructor
        · rw [List.take_succ_cons]
          intro hcontra
          rcases List.mem_cons.mp hcontra with h3 | h3
          · exact hc h3.symm
          · exact hmem h3
        · exact ⟨rest2, by simpa using hdrop, by simpa using hdrop2⟩
      | none => rw [h2] at h; simp at h

theorem digitsFindFrom_none {l : List Char} {i : Nat}
    (h : digitsFindFrom l i = none) : ∀ c ∈ l, c.isDigit = false := by
  induction l generalizing i with
  | nil => simp
  | cons c rest ih =>
    simp only [digitsFindFrom] at h
    by_cases hc : c.isDigit
    · rw [if_pos hc] at h; simp at h
    · rw [if_neg hc] at h
      intro x hx
      rcases List.mem_cons.mp hx with rfl | hx
      · simpa using hc
      · exact ih h x hx

theorem digitsFind_cons_digit {c : Char} (rest : List Char)
    (h : c.isDigit = true) :
    digitsFind (c :: rest) = some (0, 1 + (rest.takeWhile Char.isDigit).length) := by
  simp [digitsFind, digitsFindFrom, h]

/-! Helper lemmas: round trips of the decimal renderings through the parsers. -/

theorem natToChars_head_digit (v : Nat) :
    ∃ hd tl, natToChars v = hd :: tl ∧ hd.isDigit = true := by
  cases h : natToChars v with
  | nil => exact absurd h (natToChars_ne_nil v)
  | cons hd tl =>
    refine ⟨hd, tl, rfl, natToChars_all_digits v hd ?_⟩
    rw [h]
    simp

theorem takeWhile_eq_self_of_all {p : Char → Bool} {l : List Char}
    (h : ∀ c ∈ l, p c) : l.takeWhile p = l := by
  have := takeWhile_append_all l [] h
  simpa using this

theorem parseUnsigned_natToChars {v max : Nat} (h : v ≤ max) :
    parseUnsigned (natToChars v) max = some v := by
  obtain ⟨hd, tl, heq, hdig⟩ := natToChars_head_digit v
  have hplus : ¬ hd = '+' := fun h2 => not_sign_of_isDigit hdig (Or.inl h2)
  have hall : (natToChars v).all Char.isDigit = true :=
    List.all_eq_true.mpr (fun c hc => natToChars_all_digits v c hc)
  rw [heq] at hall
  rw [heq]
  simp only [parseUnsigned, if_neg hplus]
  rw [if_neg (by simp), if_pos hall, ← heq, digitsToNat_natToChars, if_pos h]

theorem parseSigned_neg_digits (ds : List Char) (min max : Int) (hne : ds ≠ [])
    (hall : ds.all Char.isDigit = true) :
    parseSigned ('-' :: ds) min max =
      if min ≤ (-1 : Int) * (digitsToNat ds : Int) ∧
          (-1 : Int) * (digitsToNat ds : Int) ≤ max
      then some ((-1 : Int) * (digitsToNat ds : Int)) else none := by
  simp only [parseSigned,
    show (('-' : Char) = '+') = False from by decide, if_false,
    show (('-' : Char) = '-') = True from by decide, if_true]
  rw [if_neg hne, if_pos hall]

theorem parseSigned_nosign_digits {hd : Char} (tl : List Char) (min max : Int)
    (hdig : hd.isDigit = true) (hall : (hd :: tl).all Char.isDigit = true) :
    parseSigned (hd :: tl) min max =
      if min ≤ (1 : Int) * (digitsToNat (hd :: tl) : Int) ∧
          (1 : Int) * (digitsToNat (hd :: tl) : Int) ≤ max
      then some ((1 : Int) * (digitsToNat (hd :: tl) : Int)) else none := by
  have hplus : ¬ hd = '+' := fun h2 => not_sign_of_isDigit hdig (Or.inl h2)
  have hminus : ¬ hd = '-' := fun h2 => not_sign_of_isDigit hdig (Or.inr h2)
  simp only [parseSigned, if_neg hplus, if_neg hminus]
  rw [if_neg (by simp), if_pos hall]

theorem parseSigned_intToChars {v min max : Int} (h1 : min ≤ v) (h2 : v ≤ max) :
    parseSigned (intToChars v) min max = some v := by
  by_cases hv : v < 0
  · have hall : (natToChars v.natAbs).all Char.isDigit = true :=
      List.all_eq_true.mpr (fun c hc => natToChars_all_digits v.natAbs c hc)
    rw [intToChars, if_pos hv,
      parseSigned_neg_digits _ min max (natToChars_ne_nil v.natAbs) hall,
      digitsToNat_natToChars]
    have habs : (-1 : Int) * (v.natAbs : Int) = v := by omega
    rw [habs, if_pos ⟨h1, h2⟩]
  · obtain ⟨hd, tl, heq, hdig⟩ := natToChars_head_digit v.toNat
    have hall : (natToChars v.toNat).all Char.isDigit = true :=
      List.all_eq_true.mpr (fun c hc => natToChars_all_digits v.toNat c hc)
    rw [intToChars, if_neg hv, heq, parseSigned_nosign_digits tl min max hdig
      (by rw [← heq]; exact hall), ← heq, digitsToNat_natToChars]
    have htn : (1 : Int) * ((v.toNat : Nat) : Int) = v := by omega
    rw [htn, if_pos ⟨h1, h2⟩]

/-! Helper lemmas: the numeric deserializers on serialized values. -/

theorem natToChars_ascii (v : Nat) : ∀ c ∈ natToChars v, utf8Len c = 1 :=
  fun c hc => utf8Len_of_isDigit (natToChars_all_digits v c hc)

theorem intToChars_ascii (v : Int) : ∀ c ∈ intToChars v, utf8Len c = 1 := by
  intro c hc
  unfold intToChars at hc
  split at hc
  · rcases List.mem_cons.mp hc with rfl | hc
    · decide
    · exact natToChars_ascii _ c hc
  · exact natToChars_ascii _ c hc

theorem uintPrefixLen_natToChars (v : Nat) :
    uintPrefixLen (natToChars v) = (natToChars v).length := by
  unfold uintPrefixLen
  rw [takeWhile_eq_self_of_all (natToChars_all_digits v)]

theorem uintDeserialize_natToChars {max v : Nat} (h : v ≤ max) :
    uintDeserialize max (natToChars v) = POutcome.ok v [] := by
  unfold uintDeserialize
  rw [deserializeWithParse_eq _ _ _
    (le_of_eq (uintPrefixLen_natToChars v))
    (fun c hc => natToChars_ascii v c (List.mem_of_mem_take hc))]
  rw [uintPrefixLen_natToChars, List.take_length, List.drop_length,
    parseUnsigned_natToChars h]

theorem sintPrefixLen_intToChars (v : Int) :
    sintPrefixLen (intToChars v) = (intToChars v).length := by
  by_cases hv : v < 0
  · rw [intToChars, if_pos hv]
    simp only [sintPrefixLen]
    rw [if_pos (by simp), takeWhile_eq_self_of_all (natToChars_all_digits _),
      if_neg (natToChars_ne_nil _)]
    simp
  · rw [intToChars, if_neg hv]
    obtain ⟨hd, tl, heq, hdig⟩ := natToChars_head_digit v.toNat
    rw [heq]
    simp only [sintPrefixLen]
    rw [if_neg (not_sign_of_isDigit hdig), ← heq,
      takeWhile_eq_self_of_all (natToChars_all_digits _), heq]

theorem sintDeserialize_intToChars {min max v : Int} (h1 : min ≤ v) (h2 : v ≤ max) :
    sintDeserialize min max (intToChars v) = POutcome.ok v [] := by
  unfold sintDeserialize
  rw [deserializeWithParse_eq _ _ _
    (le_of_eq (sintPrefixLen_intToChars v))
    (fun c hc => intToChars_ascii v c (List.mem_of_mem_take hc))]
  rw [sintPrefixLen_intToChars, List.take_length, List.drop_length,
    parseSigned_intToChars h1 h2]

/-- The behaviour the blanket numeric deserialize has for a matcher/parser
pair: the pattern length never exceeds the input length, and the result is
exactly "parse the matched prefix, with the cursor advanced past the matched
prefix whether or not the parse succeeds, and an error (never a default
value) when it fails". -/
def PatternParseDeserialize {α : Type} (dser : List Char → POutcome α)
    (plen : List Char → Nat) (parse : List Char → Option α) : Prop :=
  ∀ input : List Char,
    plen input ≤ input.length ∧
    dser input =
      match parse (input.take (plen input)) with
      | some v => POutcome.ok v (input.drop (plen input))
      | none => POutcome.err (Error.ResponseDecoding parseFailMsg)
          (input.drop (plen input))

theorem uint_pattern_parse (max : Nat) :
    PatternParseDeserialize (uintDeserialize max) uintPrefixLen
      (fun s => parseUnsigned s max) := by
  intro input
  refine ⟨uintPrefixLen_le input, ?_⟩
  unfold uintDeserialize
  rw [deserializeWithParse_eq _ _ _ (uintPrefixLen_le input) (uint_take_ascii input)]

theorem sint_pattern_parse (min max : Int) :
    PatternParseDeserialize (sintDeserialize min max) sintPrefixLen
      (fun s => parseSigned s min max) := by
  intro input
  refine ⟨sintPrefixLen_le input, ?_⟩
  unfold sintDeserialize
  rw [deserializeWithParse_eq _ _ _ (sintPrefixLen_le input) (sint_take_ascii input)]

theorem float_pattern_parse :
    PatternParseDeserialize floatDeserialize floatPrefixLen parseFloat := by
  intro input
  refine ⟨floatPrefixLen_le input, ?_⟩
  unfold floatDeserialize
  rw [deserializeWithParse_eq _ _ _ (floatPrefixLen_le input) (float_take_ascii input)]

/-! Helper lemmas: nonempty float matches with no digit are a bare sign. -/

theorem floatSpan_fst (input : List Char) :
    (floatSpan input).1 =
      (signSpan input).1 ++ (digitSpan (signSpan input).2).1 ++
        (fracSpan (digitSpan (signSpan input).2).2).1 ++
        (expSpan (fracSpan (digitSpan (signSpan input).2).2).2).1 := rfl

theorem floatSpan_digit_or_sign (input : List Char)
    (hne : (floatSpan input).1 ≠ []) :
    (∃ c ∈ (floatSpan input).1, c.isDigit = true) ∨
      (floatSpan input).1 = ['+'] ∨ (floatSpan input).1 = ['-'] := by
  rw [floatSpan_fst] at hne ⊢
  by_cases hd : (digitSpan (signSpan input).2).1 = []
  · by_cases hf : (fracSpan (digitSpan (signSpan input).2).2).1 = []
    · by_cases he : (expSpan (fracSpan (digitSpan (signSpan input).2).2).2).1 = []
      · rw [hd, hf, he] at hne ⊢
        simp only [List.append_nil] at hne ⊢
        rcases signSpan_sign input with h0 | h0 | h0
        · exact absurd h0 hne
        · exact Or.inr (Or.inl h0)
        · exact Or.inr (Or.inr h0)
      · left
        rcases expSpan_exp (fracSpan (digitSpan (signSpan input).2).2).2 with h0 |
          ⟨m, sg2, ds, _, _, hne2, hdig, heq⟩
        · exact absurd h0 he
        · obtain ⟨d0, ds', rfl⟩ : ∃ d0 ds', ds = d0 :: ds' := by
            cases ds with
            | nil => exact absurd rfl hne2
            | cons a b => exact ⟨a, b, rfl⟩
          exact ⟨d0, by rw [heq]; simp, hdig d0 (by simp)⟩
    · left
      rcases fracSpan_frac (digitSpan (signSpan input).2).2 with h0 |
        ⟨ds, hne2, hdig, heq⟩
      · exact absurd h0 hf
      · obtain ⟨d0, ds', rfl⟩ : ∃ d0 ds', ds = d0 :: ds' := by
          cases ds with
          | nil => exact absurd rfl hne2
          | cons a b => exact ⟨a, b, rfl⟩
        exact ⟨d0, by rw [heq]; simp, hdig d0 (by simp)⟩
  · left
    obtain ⟨d0, ds', heq⟩ : ∃ d0 ds', (digitSpan (signSpan input).2).1 = d0 :: ds' := by
      cases h0 : (digitSpan (signSpan input).2).1 with
      | nil => exact absurd h0 hd
      | cons a b => exact ⟨a, b, rfl⟩
    exact ⟨d0, by rw [heq]; simp, digitSpan_digits _ d0 (by rw [heq]; simp)⟩

/-! Evaluation lemma for `deserialize_complete`. -/

theorem deserialize_complete_eq {α : Type} (d : List Char → POutcome α)
    (input : List Char) :
    deserialize_complete d input =
      match d input with
      | POutcome.ok v rest => if rest = [] then COutcome.ok v else COutcome.panic
      | POutcome.err e _ => COutcome.err e
      | POutcome.panic => COutcome.panic := by
  unfold deserialize_complete check_empty
  cases d input with
  | ok v rest => cases rest <;> simp
  | err e rest => rfl
  | panic => rfl

/-- C3: `deserialize_complete` runs the type's `deserialize`; it returns
`Ok(value)` exactly when `deserialize` succeeds consuming the whole input;
when `deserialize` succeeds but leftover text remains it panics
(`check_empty(..).unwrap()`) instead of returning the leftover-check's error
as a recoverable result; and an error of `deserialize` itself is propagated
unchanged. -/
theorem claim_c3 :
    ∀ (α : Type) (d : List Char → POutcome α) (input : List Char),
      (∀ v, deserialize_complete d input = COutcome.ok v ↔
        d input = POutcome.ok v []) ∧
      (∀ v rest, d input = POutcome.ok v rest → rest ≠ [] →
        deserialize_complete d input = COutcome.panic) ∧
      (∀ e rest, d input = POutcome.err e rest →
        deserialize_complete d input = COutcome.err e) ∧
      (d input = POutcome.panic → deserialize_complete d input = COutcome.panic) := by
  intro α d input
  refine ⟨?_, ?_, ?_, ?_⟩
  · intro v
    cases hd : d input with
    | ok w rest =>
      by_cases hr : rest = []
      · subst hr
        simp [deserialize_complete_eq, hd]
      · simp [deserialize_complete_eq, hd, hr]
    | err e rest => simp [deserialize_complete_eq, hd]
    | panic => simp [deserialize_complete_eq, hd]
  · intro v rest hd hr
    simp [deserialize_complete_eq, hd, hr]
  · intro e rest hd
    simp [deserialize_complete_eq, hd]
  · intro hd
    simp [deserialize_complete_eq, hd]

/-- C3 witness: decoding `u8` from `"12X"` succeeds with leftover `"X"`, and
`deserialize_complete` panics on the leftover instead of returning an error. -/
theorem claim_c3_witness :
    deserialize_complete u8_deserialize ['1', '2', 'X'] = COutcome.panic :=
  (claim_c3 Nat u8_deserialize ['1', '2', 'X']).2.1 12 ['X'] (by decide) (by decide)

/-- C6 counterexample: with the two-byte delimiter `é` present in the input,
`read_until` panics (the code byte-slices one byte past the delimiter's
start), whereas the claim asserts it never panics and returns the text
before the delimiter for every delimiter character. -/
theorem claim_c6_counterexample :
    read_until ['a', 'é', 'b'] 'é' = POutcome.panic := by decide

/-- C6 (amended): when the delimiter is absent `read_until` fails with the
cursor unchanged; when it is present at first index `k`, the result for a
ONE-BYTE delimiter is the text strictly before the delimiter with the cursor
just past it, but for a delimiter whose UTF-8 encoding is longer than one
byte the code panics. -/
theorem claim_c6 :
    ∀ (input : List Char) (d : Char),
      (d ∉ input → read_until input d =
        POutcome.err (Error.ResponseDecoding (readUntilMsg d input)) input) ∧
      (∀ k, charIdxOf d input = some k →
        (d ∉ input.take k ∧ ∃ rest, input.drop k = d :: rest) ∧
        (utf8Len d = 1 →
          read_until input d = POutcome.ok (input.take k) (input.drop (k + 1))) ∧
        (utf8Len d ≠ 1 → read_until input d = POutcome.panic)) := by
  intro input d
  constructor
  · intro hnm
    unfold read_until
    rw [(charIdxOf_none_iff d input).mpr hnm]
  · intro k hk
    obtain ⟨hmem, rest, hdrop, _⟩ := charIdxOf_spec d input k hk
    refine ⟨⟨hmem, rest, hdrop⟩, ?_, ?_⟩
    · intro h1
      simp only [read_until, hk]
      rw [if_pos h1]
    · intro h1
      simp only [read_until, hk]
      rw [if_neg h1]

/-- C6 witness: `read_until("12,34", ',')` returns `"12"` and leaves the
cursor at `"34"`. -/
theorem claim_c6_witness :
    read_until ['1', '2', ',', '3', '4'] ',' = POutcome.ok ['1', '2'] ['3', '4'] :=
  ((claim_c6 ['1', '2', ',', '3', '4'] ',').2 2 (by decide)).2.1 (by decide)

/-- The function `byteLen` distributes over append (used for the C7 theorem). -/
theorem byteLen_append : ∀ h t : List Char, byteLen (h ++ t) = byteLen h + byteLen t
  | [], t => by simp [byteLen]
  | c :: h, t => by
    have ih := byteLen_append h t
    simp only [List.cons_append, byteLen, List.append_eq] at ih ⊢
    omega

/-- C7 counterexample: `"é"` is one character but two bytes; `read_exact` with
`n = 2` SUCCEEDS and returns that single character, whereas the claim says
`n` counts characters, so it should have failed (1 character < 2). -/
theorem claim_c7_counterexample :
    (['é'] : List Char).length < 2 ∧
    read_exact ['é'] 2 = POutcome.ok ['é'] [] := by decide

/-- C7 (amended): `read_exact` counts BYTES, not characters: it fails with
the cursor unchanged when fewer than `n` bytes remain; when `n` bytes remain
and `n` is a character boundary it returns the characters spanning exactly the
first `n` bytes; when `n` falls inside a multi-byte character it panics.  For
all-ASCII prefixes bytes and characters coincide and the claimed behaviour
holds. -/
theorem claim_c7 :
    ∀ (input : List Char) (n : Nat),
      (byteLen input < n → read_exact input n =
        POutcome.err (Error.ResponseDecoding (readExactMsg n input)) input) ∧
      (∀ h t, takeBytes input n = some (h, t) →
        read_exact input n = POutcome.ok h t ∧ h ++ t = input ∧ byteLen h = n) ∧
      (n ≤ byteLen input → takeBytes input n = none →
        read_exact input n = POutcome.panic) ∧
      (n ≤ input.length → (∀ c ∈ input.take n, utf8Len c = 1) →
        read_exact input n = POutcome.ok (input.take n) (input.drop n)) := by
  intro input n
  refine ⟨?_, ?_, ?_, ?_⟩
  · intro hlt
    unfold read_exact
    rw [if_pos hlt]
  · intro h t htb
    obtain ⟨happ, hbl⟩ := takeBytes_some input n h t htb
    have hge : ¬ byteLen input < n := by
      rw [← happ, byteLen_append]
      omega
    refine ⟨?_, happ, hbl⟩
    unfold read_exact
    rw [if_neg hge, htb]
  · intro hle htb
    unfold read_exact
    rw [if_neg (Nat.not_lt.mpr hle), htb]
  · exact read_exact_ascii input n

/-- C7 witness: `read_exact("1234", 2)` returns `"12"`, cursor `"34"`. -/
theorem claim_c7_witness :
    read_exact ['1', '2', '3', '4'] 2 = POutcome.ok ['1', '2'] ['3', '4'] := by
  have h := (claim_c7 ['1', '2', '3', '4'] 2).2.2.2 (by decide) (by decide)
  simpa using h

/-- C8 counterexample: with the unanchored pattern `[0-9]+` on input `"ab12"`
(which does NOT match at the start), `read_prefix` does not return the empty
string with the cursor unchanged as the claim demands: it consumes through
the end of the leftmost match, returning `"ab12"`. -/
theorem claim_c8_counterexample :
    ('a' : Char).isDigit = false ∧
    read_prefix digitsFind ['a', 'b', '1', '2'] = (['a', 'b', '1', '2'], []) := by
  decide

/-- C8 (amended): `read_prefix` never fails; when the pattern has no match
anywhere it returns the empty string with the cursor unchanged; when the
leftmost match ends at position `e` it returns the input up to `e` — which
includes any unmatched head before the match start, so the returned text is
the matched prefix only for patterns anchored at the start (as all the
crate's numeric patterns are).  For the digit pattern: no-digit inputs give
the empty result, and inputs starting with a digit give exactly the maximal
digit run. -/
theorem claim_c8 :
    ∀ (find : List Char → Option (Nat × Nat)) (input : List Char),
      (find input = none → read_prefix find input = ([], input)) ∧
      (∀ s e, find input = some (s, e) →
        read_prefix find input = (input.take e, input.drop e) ∧
        ( read_prefix find input).1 ++ ( read_prefix find input).2 = input) ∧
      (digitsFind input = none → (∀ c ∈ input, c.isDigit = false) ∧
        read_prefix digitsFind input = ([], input)) ∧
      (∀ c rest, input = c :: rest → c.isDigit = true →
        read_prefix digitsFind input =
          (input.takeWhile Char.isDigit, input.dropWhile Char.isDigit)) := by
  intro find input
  refine ⟨?_, ?_, ?_, ?_⟩
  · intro hf
    unfold read_prefix
    rw [hf]
    simp
  · intro s e hf
    unfold read_prefix
    rw [hf]
    exact ⟨rfl, by simp⟩
  · intro hf
    refine ⟨digitsFindFrom_none hf, ?_⟩
    unfold read_prefix
    rw [hf]
    simp
  · intro c rest heq hc
    subst heq
    unfold read_prefix
    rw [digitsFind_cons_digit rest hc]
    show (List.take (1 + (rest.takeWhile Char.isDigit).length) (c :: rest),
        List.drop (1 + (rest.takeWhile Char.isDigit).length) (c :: rest)) = _
    rw [Nat.add_comm 1 ((rest.takeWhile Char.isDigit).length)]
    rw [List.take_succ_cons, List.drop_succ_cons, take_takeWhile_length,
      drop_takeWhile_length, List.takeWhile_cons_of_pos hc,
      List.dropWhile_cons_of_pos hc]

/-- C8 witness: on `"12,34"` the digit pattern matches at the start and
`read_prefix` returns `"12"`, cursor `",34"`. -/
theorem claim_c8_witness :
    read_prefix digitsFind ['1', '2', ',', '3', '4'] =
      (['1', '2'], [',', '3', '4']) := by
  have h := (claim_c8 digitsFind ['1', '2', ',', '3', '4']).2.2.2 '1'
    ['2', ',', '3', '4'] rfl (by decide)
  simpa using h

/-- C1 counterexample: enum declared with literals `A`, `AX`, `AXY`.  Taking
A = `AX` (index 1) and B = `AXY` (index 2): A is a prefix of B and declared
first, and the input `AXY` starts with B, yet deserialization does NOT yield
A's variant (index 1) — the even earlier literal `A` matches first, so the
result is variant 0. -/
theorem claim_c1_counterexample :
    ([['A'], ['A', 'X'], ['A', 'X', 'Y']].getD 1 [] <+:
      [['A'], ['A', 'X'], ['A', 'X', 'Y']].getD 2 []) ∧
    ([['A'], ['A', 'X'], ['A', 'X', 'Y']].getD 2 [] <+: ['A', 'X', 'Y']) ∧
    enumDeserialize ['E'] [['A'], ['A', 'X'], ['A', 'X', 'Y']] ['A', 'X', 'Y'] =
      POutcome.ok 0 ['X', 'Y'] ∧
    ∀ rest, enumDeserialize ['E'] [['A'], ['A', 'X'], ['A', 'X', 'Y']]
      ['A', 'X', 'Y'] ≠ POutcome.ok 1 rest := by
  refine ⟨by decide, by decide, by decide, ?_⟩
  intro rest h
  rw [show enumDeserialize ['E'] [['A'], ['A', 'X'], ['A', 'X', 'Y']]
    ['A', 'X', 'Y'] = POutcome.ok 0 ['X', 'Y'] from by decide] at h
  exact absurd h (by simp)

/-- C1 (amended): generated enum deserialization tries the declared literals
in declaration order and returns the variant of the first literal that is a
prefix of the remaining input, consuming exactly that literal; if no declared
literal is a prefix, it fails with the error naming the enum type and the
remaining input, leaving the cursor unchanged.  The prefix-shadowing
consequence holds as stated only when additionally no literal declared
before A is a prefix of the input: then any input starting with B decodes as
A's variant. -/
theorem claim_c1 :
    ∀ (name : List Char) (decls : List (List Char)) (input : List Char),
      (∀ i, i < decls.length → decls.getD i [] <+: input →
        (∀ j, j < i → ¬ decls.getD j [] <+: input) →
        enumDeserialize name decls input =
          POutcome.ok i (input.drop (decls.getD i []).length)) ∧
      ((∀ j, j < decls.length → ¬ decls.getD j [] <+: input) →
        enumDeserialize name decls input =
          POutcome.err (Error.ResponseDecoding (enumErrMsg name input)) input) ∧
      (∀ a b, a < b → b < decls.length → decls.getD a [] <+: decls.getD b [] →
        decls.getD b [] <+: input →
        (∀ j, j < a → ¬ decls.getD j [] <+: input) →
        enumDeserialize name decls input =
          POutcome.ok a (input.drop (decls.getD a []).length)) := by
  intro name decls input
  refine ⟨?_, ?_, ?_⟩
  · intro i hi hpre hno
    exact enumDeserialize_first_match hi hpre hno
  · intro hno
    exact enumDeserialize_no_match hno
  · intro a b hab hb hprelit hpreb hno
    exact enumDeserialize_first_match (by omega)
      (hprelit.trans hpreb) hno

/-- C1 witness: the `Color` enum of the crate's tests (`RED`, `BLAU`,
`VERT`) decoding `"BLAU"` yields the second variant with nothing left,
and decoding `"GRUEN"` fails with the error naming the enum and the input. -/
theorem claim_c1_witness :
    enumDeserialize ['C'] [['R', 'E', 'D'], ['B', 'L', 'A', 'U'], ['V', 'E', 'R', 'T']]
      ['B', 'L', 'A', 'U'] = POutcome.ok 1 [] ∧
    enumDeserialize ['C'] [['R', 'E', 'D'], ['B', 'L', 'A', 'U'], ['V', 'E', 'R', 'T']]
      ['G', 'R', 'U', 'E', 'N'] =
      POutcome.err (Error.ResponseDecoding (enumErrMsg ['C'] ['G', 'R', 'U', 'E', 'N']))
        ['G', 'R', 'U', 'E', 'N'] := by
  constructor
  · have h := (claim_c1 ['C']
      [['R', 'E', 'D'], ['B', 'L', 'A', 'U'], ['V', 'E', 'R', 'T']]
      ['B', 'L', 'A', 'U']).1 1 (by decide) (by decide)
      (fun j hj => by interval_cases j; decide)
    simpa using h
  · exact (claim_c1 ['C']
      [['R', 'E', 'D'], ['B', 'L', 'A', 'U'], ['V', 'E', 'R', 'T']]
      ['G', 'R', 'U', 'E', 'N']).2.1
      (fun j hj => by
        have hj3 : j < 3 := by simpa using hj
        interval_cases j <;> decide)

/-- C5 counterexample: enum declared with literals `A`, `AB` — the first
literal is a prefix of the second.  Serializing variant 1 gives `"AB"`, but
deserializing `"AB"` yields variant 0 (with leftover `"B"`), so
`deserialize(serialize(V)) == V` fails for this declaration, contrary to the
claim's "including declarations in which one variant's literal is a prefix
of a later variant's literal". -/
theorem claim_c5_counterexample :
    enumSerialize [['A'], ['A', 'B']] 1 [] = ['A', 'B'] ∧
    enumDeserialize ['E'] [['A'], ['A', 'B']]
      (enumSerialize [['A'], ['A', 'B']] 1 []) = POutcome.ok 0 ['B'] ∧
    ∀ rest, enumDeserialize ['E'] [['A'], ['A', 'B']]
      (enumSerialize [['A'], ['A', 'B']] 1 []) ≠ POutcome.ok 1 rest := by
  refine ⟨by decide, by decide, ?_⟩
  intro rest h
  rw [show enumDeserialize ['E'] [['A'], ['A', 'B']]
    (enumSerialize [['A'], ['A', 'B']] 1 []) = POutcome.ok 0 ['B'] from by decide] at h
  exact absurd h (by simp)

/-- C5 (amended): the enum round trip `deserialize(serialize(V)) == V`
(consuming the whole string) holds for every declared variant whose literal
has no earlier-declared literal as a prefix — in particular for every
declaration in which no earlier literal is a prefix of a later one; it can
fail when an earlier literal is a prefix of a later variant's literal. -/
theorem claim_c5 :
    ∀ (name : List Char) (decls : List (List Char)) (i : Nat),
      i < decls.length →
      (∀ j, j < i → ¬ decls.getD j [] <+: decls.getD i []) →
      enumDeserialize name decls (enumSerialize decls i []) = POutcome.ok i [] := by
  intro name decls i hi hno
  have hser : enumSerialize decls i [] = decls.getD i [] := by
    simp [enumSerialize]
  rw [hser]
  have h := @enumDeserialize_first_match name decls i (decls.getD i []) hi
    (List.prefix_refl (decls.getD i [])) hno
  rw [h, List.drop_length]

/-- C5 witness: the `Color` enum round-trips its `Red` variant. -/
theorem claim_c5_witness :
    enumDeserialize ['C'] [['R', 'E', 'D'], ['B', 'L', 'A', 'U'], ['V', 'E', 'R', 'T']]
      (enumSerialize [['R', 'E', 'D'], ['B', 'L', 'A', 'U'], ['V', 'E', 'R', 'T']] 0 []) =
      POutcome.ok 0 [] :=
  claim_c5 ['C'] [['R', 'E', 'D'], ['B', 'L', 'A', 'U'], ['V', 'E', 'R', 'T']] 0
    (by decide) (fun j hj => absurd hj (by omega))

/-- C9 counterexample: the floating-point pattern matches the one-character
prefix `+` of the inputs `"+"` and `"+x"` — a nonempty match with no
digit-bearing component, where the claim demands a zero-length match. -/
theorem claim_c9_counterexample :
    floatPrefixLen ['+'] = 1 ∧ floatPrefixLen ['+', 'x'] = 1 ∧
    (∀ c ∈ List.take (floatPrefixLen ['+']) ['+'], c.isDigit = false) := by
  decide

/-- C9 (amended): a nonempty match of the floating-point pattern either
contains at least one digit (in the integer, fraction, or exponent
component) or is exactly one bare sign character (`+` or `-`); such a bare
sign subsequently fails native parsing. -/
theorem claim_c9 :
    ∀ input : List Char, floatPrefixLen input ≠ 0 →
      (∃ c ∈ input.take (floatPrefixLen input), c.isDigit = true) ∨
      (floatPrefixLen input = 1 ∧
        (input.take (floatPrefixLen input) = ['+'] ∨
          input.take (floatPrefixLen input) = ['-']) ∧
        parseFloat (input.take (floatPrefixLen input)) = none) := by
  intro input h
  have hne : (floatSpan input).1 ≠ [] := by
    intro h0
    apply h
    unfold floatPrefixLen
    rw [h0]
    rfl
  rcases floatSpan_digit_or_sign input hne with h1 | h1 | h1
  · left
    rw [take_floatPrefixLen]
    exact h1
  · right
    have hl : floatPrefixLen input = 1 := by
      unfold floatPrefixLen
      rw [h1]
      rfl
    rw [take_floatPrefixLen, h1]
    exact ⟨hl, Or.inl rfl, by decide⟩
  · right
    have hl : floatPrefixLen input = 1 := by
      unfold floatPrefixLen
      rw [h1]
      rfl
    rw [take_floatPrefixLen, h1]
    exact ⟨hl, Or.inr rfl, by decide⟩

/-- C9 witness: on `"+5"` the pattern's match contains a digit. -/
theorem claim_c9_witness :
    (∃ c ∈ List.take (floatPrefixLen ['+', '5']) ['+', '5'], c.isDigit = true) ∨
    (floatPrefixLen ['+', '5'] = 1 ∧
      (List.take (floatPrefixLen ['+', '5']) ['+', '5'] = ['+'] ∨
        List.take (floatPrefixLen ['+', '5']) ['+', '5'] = ['-']) ∧
      parseFloat (List.take (floatPrefixLen ['+', '5']) ['+', '5']) = none) :=
  claim_c9 ['+', '5'] (by decide)

/-- C2: every numeric deserialize computes the pattern-match length (the
longest prefix matching the type's category pattern — the maximality and
match conjuncts), consumes exactly that many characters, and applies the
native parser to them; a zero-length match means the parser receives the
empty string and fails; on any parse failure a `DecodingError` is returned
(never a default value) and the cursor is advanced by exactly the matched
length, the same as on success. -/
theorem claim_c2 :
    (∀ max : Nat, PatternParseDeserialize (uintDeserialize max) uintPrefixLen
      (fun s => parseUnsigned s max)) ∧
    (∀ min max : Int, PatternParseDeserialize (sintDeserialize min max)
      sintPrefixLen (fun s => parseSigned s min max)) ∧
    PatternParseDeserialize floatDeserialize floatPrefixLen parseFloat ∧
    (∀ max : Nat, parseUnsigned [] max = none) ∧
    (∀ min max : Int, parseSigned [] min max = none) ∧
    parseFloat [] = none ∧
    (∀ s input : List Char, UIntTok s → s <+: input →
      s.length ≤ uintPrefixLen input) ∧
    (∀ input : List Char, 0 < uintPrefixLen input →
      UIntTok (input.take (uintPrefixLen input))) ∧
    (∀ s input : List Char, SIntTok s → s <+: input →
      s.length ≤ sintPrefixLen input) ∧
    (∀ input : List Char, 0 < sintPrefixLen input →
      SIntTok (input.take (sintPrefixLen input))) ∧
    (∀ s input : List Char, FloatTok s → s <+: input →
      s.length ≤ floatPrefixLen input) ∧
    (∀ input : List Char, FloatTok (input.take (floatPrefixLen input))) := by
  refine ⟨uint_pattern_parse, sint_pattern_parse, float_pattern_parse,
    fun max => by simp [parseUnsigned],
    fun min max => by simp [parseSigned],
    by simp [parseFloat],
    fun s input ht hp => uint_longest ht hp,
    fun input h => uint_matches h,
    fun s input ht hp => sint_longest ht hp,
    fun input h => sint_matches h,
    fun s input ht hp => float_longest ht hp,
    fun input => by rw [take_floatPrefixLen]; exact floatSpan_tok input⟩

/-- C2 witness: decoding `u8` from `"256X"` pattern-matches `"256"` (the
longest digit prefix), native parsing overflows, and the result is a
`DecodingError` with the cursor advanced past exactly the three matched
characters; `"256"` is itself a maximal unsigned-integer token of that
input. -/
theorem claim_c2_witness :
    uintPrefixLen ['2', '5', '6', 'X'] ≤ (['2', '5', '6', 'X'] : List Char).length ∧
    u8_deserialize ['2', '5', '6', 'X'] =
      POutcome.err (Error.ResponseDecoding parseFailMsg) ['X'] ∧
    UIntTok ['2', '5', '6'] ∧
    (['2', '5', '6'] : List Char).length ≤ uintPrefixLen ['2', '5', '6', 'X'] := by
  obtain ⟨hu, _, _, _, _, _, hul, _⟩ := claim_c2
  refine ⟨(hu (2 ^ 8 - 1) ['2', '5', '6', 'X']).1, ?_, ⟨by decide, by decide⟩, ?_⟩
  · have h2 := (hu (2 ^ 8 - 1) ['2', '5', '6', 'X']).2
    rw [show u8_deserialize = uintDeserialize (2 ^ 8 - 1) from rfl, h2]
    decide
  · exact hul ['2', '5', '6'] ['2', '5', '6', 'X'] ⟨by decide, by decide⟩ (by decide)

/-- C4: integer round trip — deserializing the serialization of any value of
a fixed-width unsigned or signed integer type yields exactly that value and
consumes the whole string; instantiated for all ten width instances. -/
theorem claim_c4 :
    (∀ max v : Nat, v ≤ max →
      uintDeserialize max (natSerialize v []) = POutcome.ok v []) ∧
    (∀ min max v : Int, min ≤ v → v ≤ max →
      sintDeserialize min max (intSerialize v []) = POutcome.ok v []) ∧
    (∀ v : Nat, v ≤ 2 ^ 8 - 1 →
      u8_deserialize (natSerialize v []) = POutcome.ok v []) ∧
    (∀ v : Nat, v ≤ 2 ^ 16 - 1 →
      u16_deserialize (natSerialize v []) = POutcome.ok v []) ∧
    (∀ v : Nat, v ≤ 2 ^ 32 - 1 →
      u32_deserialize (natSerialize v []) = POutcome.ok v []) ∧
    (∀ v : Nat, v ≤ 2 ^ 64 - 1 →
      u64_deserialize (natSerialize v []) = POutcome.ok v []) ∧
    (∀ v : Nat, v ≤ 2 ^ 128 - 1 →
      u128_deserialize (natSerialize v []) = POutcome.ok v []) ∧
    (∀ v : Int, -(2 ^ 7) ≤ v → v ≤ 2 ^ 7 - 1 →
      i8_deserialize (intSerialize v []) = POutcome.ok v []) ∧
    (∀ v : Int, -(2 ^ 15) ≤ v → v ≤ 2 ^ 15 - 1 →
      i16_deserialize (intSerialize v []) = POutcome.ok v []) ∧
    (∀ v : Int, -(2 ^ 31) ≤ v → v ≤ 2 ^ 31 - 1 →
      i32_deserialize (intSerialize v []) = POutcome.ok v []) ∧
    (∀ v : Int, -(2 ^ 63) ≤ v → v ≤ 2 ^ 63 - 1 →
      i64_deserialize (intSerialize v []) = POutcome.ok v []) ∧
    (∀ v : Int, -(2 ^ 127) ≤ v → v ≤ 2 ^ 127 - 1 →
      i128_deserialize (intSerialize v []) = POutcome.ok v []) := by
  have hu : ∀ max v : Nat, v ≤ max →
      uintDeserialize max (natSerialize v []) = POutcome.ok v [] := by
    intro max v h
    exact uintDeserialize_natToChars h
  have hs : ∀ min max v : Int, min ≤ v → v ≤ max →
      sintDeserialize min max (intSerialize v []) = POutcome.ok v [] := by
    intro min max v h1 h2
    exact sintDeserialize_intToChars h1 h2
  exact ⟨hu, hs, fun v h => hu _ v h, fun v h => hu _ v h, fun v h => hu _ v h,
    fun v h => hu _ v h, fun v h => hu _ v h,
    fun v h1 h2 => hs _ _ v h1 h2, fun v h1 h2 => hs _ _ v h1 h2,
    fun v h1 h2 => hs _ _ v h1 h2, fun v h1 h2 => hs _ _ v h1 h2,
    fun v h1 h2 => hs _ _ v h1 h2⟩

/-- C4 witness: `123u8` and `-123i8` round-trip through their decimal
serializations. -/
theorem claim_c4_witness :
    u8_deserialize (natSerialize 123 []) = POutcome.ok 123 [] ∧
    i8_deserialize (intSerialize (-123) []) = POutcome.ok (-123) [] :=
  ⟨claim_c4.2.2.1 123 (by decide),
    claim_c4.2.2.2.2.2.2.2.1 (-123) (by decide) (by decide)⟩

/-- C10: every serializer the crate provides only appends to the output
buffer — the previous content is an unchanged prefix and the appended suffix
equals `serialize_to_string` of the value: the `SerializeToString` wrapper
through which ALL twelve numeric primitives (u8..u128, i8..i128, f32, f64)
gain their serializer, for every `to_string` rendering — stated generically,
so it covers the floats' shortest-decimal rendering without computing it —
with the integer serializers as its instances; the generated enum
serializers; `Option<T>` (given an append-only inner serializer; `None`
appends nothing); and the composite-record serializer generated from literal
and field parts (given append-only field serializers). -/
theorem claim_c10 :
    (∀ (α : Type) (toStr : α → List Char), AppendOnly (serializeToString toStr)) ∧
    natSerialize = serializeToString natToChars ∧
    intSerialize = serializeToString intToChars ∧
    AppendOnly natSerialize ∧ AppendOnly intSerialize ∧
    (∀ decls : List (List Char), AppendOnly (enumSerialize decls)) ∧
    (∀ (α : Type) (ser : α → List Char → List Char), AppendOnly ser →
      AppendOnly (optionSerialize ser) ∧
      ∀ out, optionSerialize ser none out = out) ∧
    (∀ (α : Type) (parts : List (SPart α)),
      (∀ f, SPart.field f ∈ parts → AppendOnly f) →
      AppendOnly (compositeSerialize parts)) :=
  ⟨fun _ toStr => serializeToString_appendOnly toStr, rfl, rfl,
    natSerialize_appendOnly, intSerialize_appendOnly,
    enumSerialize_appendOnly,
    fun _ ser h => ⟨optionSerialize_appendOnly ser h, fun _ => rfl⟩,
    fun _ parts h => compositeSerialize_appendOnly parts h⟩

/-- C10 witness: a `SerializeToString`-wrapped rendering (standing for an
`f32` whose `to_string` gives `"0.2"`) appends exactly that text after
pre-existing content; serializing `None` appends nothing to a nonempty
buffer; the composite record `["VOLT ", field]` over `5u8` appends exactly
`"VOLT 5"` after pre-existing content. -/
theorem claim_c10_witness :
    serializeToString (fun _ : Unit => ['0', '.', '2']) () ['Y'] =
      ['Y'] ++ serialize_to_string (serializeToString (fun _ : Unit => ['0', '.', '2'])) () ∧
    optionSerialize natSerialize none ['V'] = ['V'] ∧
    natSerialize 5 ['V'] = ['V'] ++ serialize_to_string natSerialize 5 ∧
    compositeSerialize
      [SPart.lit ['V', 'O', 'L', 'T', ' '], SPart.field natSerialize] 5 ['X'] =
      ['X'] ++ serialize_to_string
        (compositeSerialize
          [SPart.lit ['V', 'O', 'L', 'T', ' '], SPart.field natSerialize]) 5 ∧
    serialize_to_string
      (compositeSerialize
        [SPart.lit ['V', 'O', 'L', 'T', ' '], SPart.field natSerialize]) 5 =
      ['V', 'O', 'L', 'T', ' ', '5'] := by
  obtain ⟨hts, _, _, hnat, _, _, hopt, hcomp⟩ := claim_c10
  have hfields : ∀ f, SPart.field f ∈
      [SPart.lit ['V', 'O', 'L', 'T', ' '],
        SPart.field (natSerialize : Nat → List Char → List Char)] →
      AppendOnly f := by
    intro f hf
    rcases List.mem_cons.mp hf with h1 | h1
    · exact absurd h1 (by simp)
    · rcases List.mem_cons.mp h1 with h2 | h2
      · injection h2 with h3
        rw [h3]
        exact hnat
      · simp at h2
  refine ⟨hts Unit (fun _ => ['0', '.', '2']) () ['Y'],
    (hopt Nat natSerialize hnat).2 ['V'], hnat 5 ['V'],
    hcomp Nat _ hfields 5 ['X'], by decide⟩
